import Mathlib

/-!
Verification of the security-header normalization/classification engine and the
snapshot-stability state machine of the crawled-archives analysis repository.

Strings are modelled as lists of characters (`Str`); Python's `str.lower` /
`str.upper` are modelled on the ASCII range (header values are ASCII), and the
fallible pieces of the code (attribute access on a possibly-`None` origin, the
fall-through of a `match` statement without a default case) are modelled with
`Except` / `Option`.
-/

/-- Python strings, modelled as lists of characters. -/
abbrev Str := List Char

/-- The apostrophe character (avoids a quote character literal). -/
def quoteA : Char := Char.ofNat 39

/-- The double-quote character (avoids a quote character literal). -/
def quoteD : Char := Char.ofNat 34

/-- ASCII lower-casing of one character, as `str.lower` acts on the ASCII range. -/
def lowerChar (c : Char) : Char :=
  match c with
  | 'A' => 'a' | 'B' => 'b' | 'C' => 'c' | 'D' => 'd' | 'E' => 'e' | 'F' => 'f'
  | 'G' => 'g' | 'H' => 'h' | 'I' => 'i' | 'J' => 'j' | 'K' => 'k' | 'L' => 'l'
  | 'M' => 'm' | 'N' => 'n' | 'O' => 'o' | 'P' => 'p' | 'Q' => 'q' | 'R' => 'r'
  | 'S' => 's' | 'T' => 't' | 'U' => 'u' | 'V' => 'v' | 'W' => 'w' | 'X' => 'x'
  | 'Y' => 'y' | 'Z' => 'z'
  | c => c

/-- ASCII upper-casing of one character, as `str.upper` acts on the ASCII range. -/
def upperChar (c : Char) : Char :=
  match c with
  | 'a' => 'A' | 'b' => 'B' | 'c' => 'C' | 'd' => 'D' | 'e' => 'E' | 'f' => 'F'
  | 'g' => 'G' | 'h' => 'H' | 'i' => 'I' | 'j' => 'J' | 'k' => 'K' | 'l' => 'L'
  | 'm' => 'M' | 'n' => 'N' | 'o' => 'O' | 'p' => 'P' | 'q' => 'Q' | 'r' => 'R'
  | 's' => 'S' | 't' => 'T' | 'u' => 'U' | 'v' => 'V' | 'w' => 'W' | 'x' => 'X'
  | 'y' => 'Y' | 'z' => 'Z'
  | c => c

/-- Python `str.lower` (ASCII model). -/
def pyLower (s : Str) : Str := s.map lowerChar

/-- Python `str.upper` (ASCII model). -/
def pyUpper (s : Str) : Str := s.map upperChar

/-- The characters Python `str.strip()` removes (ASCII whitespace). -/
def pyIsSpace (c : Char) : Bool :=
  c = ' ' || c = '\t' || c = '\n' || c = '\r' || c = '\x0b' || c = '\x0c'

/-- Python `str.strip()`: drop whitespace from both ends. -/
def pyStrip (s : Str) : Str :=
  ((s.dropWhile pyIsSpace).reverse.dropWhile pyIsSpace).reverse

/-- Python `str.split(sep)` for a one-character separator: keeps empty chunks,
    always returns at least one chunk. -/
def splitSep (sep : Char) : Str → List Str
  | [] => [[]]
  | c :: cs =>
    if c = sep then [] :: splitSep sep cs
    else
      match splitSep sep cs with
      | [] => [[c]]
      | p :: ps => (c :: p) :: ps

/-- Python `sep.join(parts)` for a one-character separator. -/
def joinSep (sep : Char) : List Str → Str
  | [] => []
  | [p] => p
  | p :: q :: ps => p ++ sep :: joinSep sep (q :: ps)

/-- Worker of `pySplitWs`; `w` is the reversed current word. -/
def pySplitWsGo (w : Str) : Str → List Str
  | [] => if w.isEmpty then [] else [w.reverse]
  | c :: cs =>
    if pyIsSpace c then
      if w.isEmpty then pySplitWsGo [] cs else w.reverse :: pySplitWsGo [] cs
    else pySplitWsGo (c :: w) cs

/-- Python `str.split()` with no argument: split on whitespace runs, dropping
    empty tokens. -/
def pySplitWs (s : Str) : List Str := pySplitWsGo [] s

/-- Lexicographic comparison of strings by character code points, as Python
    compares strings. -/
def strLe : Str → Str → Bool
  | [], _ => true
  | _ :: _, [] => false
  | a :: as, b :: bs => if a = b then strLe as bs else decide (a < b)

/-- Insert a string into a (sorted) list of strings, before the first
    not-smaller element. -/
def insStr (x : Str) : List Str → List Str
  | [] => [x]
  | y :: ys => if strLe x y then x :: y :: ys else y :: insStr x ys

/-- Insertion sort with `strLe`; on strings it agrees with Python `sorted`. -/
def insSortStr : List Str → List Str
  | [] => []
  | x :: xs => insStr x (insSortStr xs)

/-- Worker of `dedupStr` with the elements already kept. -/
def dedupStrGo (seen : List Str) : List Str → List Str
  | [] => []
  | x :: xs =>
    if seen.contains x then dedupStrGo seen xs
    else x :: dedupStrGo (x :: seen) xs

/-- Deduplication keeping the first occurrence; models building a Python `set`
    from a list (once the result is sorted, iteration order is irrelevant). -/
def dedupStr (l : List Str) : List Str := dedupStrGo [] l


/-! ### Case-insensitive regex matching, as used by `normalize_csp`

The three `re.sub(..., flags=re.IGNORECASE)` calls of `normalize_csp` are
modelled by hand-rolled left-to-right scanners.  Every character test factors
through `lowerChar`, which is exactly case-insensitive matching for the
case-symmetric character classes and literals of the three patterns. -/

/-- Case-insensitively consume the literal `lit` (given in lower case) from the
    front of `xs`, returning the rest on success. -/
def matchCI : Str → Str → Option Str
  | [], xs => some xs
  | _ :: _, [] => none
  | l :: ls, c :: cs => if lowerChar c = l then matchCI ls cs else none

/-- The character class `[A-Za-z0-9+/\-_]` of the nonce/hash source patterns. -/
def isB64 (c : Char) : Bool :=
  let d := lowerChar c
  (decide ('a' ≤ d) && decide (d ≤ 'z')) || (decide ('0' ≤ d) && decide (d ≤ '9')) ||
    d = '+' || d = '/' || d = '-' || d = '_'

/-- Consume `={0,2}` followed by a closing apostrophe (`'`), as at the end of the
    `'nonce-...'` / `'sha...-...'` patterns. -/
def eatEqQuote : Str → Option Str
  | [] => none
  | c :: cs =>
    if lowerChar c = quoteA then some cs
    else if lowerChar c = '=' then
      match cs with
      | [] => none
      | d :: ds =>
        if lowerChar d = quoteA then some ds
        else if lowerChar d = '=' then
          match ds with
          | [] => none
          | e :: es => if lowerChar e = quoteA then some es else none
        else none
    else none

/-- Attempt the pattern `'nonce-[A-Za-z0-9+/\-_]+={0,2}'` at the front of `xs`;
    on success return the replacement (`'nonce-VALUE'`) and the rest. -/
def tryNonce (xs : Str) : Option (Str × Str) :=
  match matchCI "'nonce-".toList xs with
  | none => none
  | some r1 =>
    let body := r1.takeWhile isB64
    if body.isEmpty then none
    else
      match eatEqQuote (r1.dropWhile isB64) with
      | none => none
      | some rest => some ("'nonce-VALUE'".toList, rest)

/-- Attempt one alternative `ds ∈ {256, 384, 512}` of the pattern
    `'sha(256|384|512)-[A-Za-z0-9+/\-_]+={0,2}'` (the leading `'sha` has already
    been consumed, leaving `r1`); the replacement keeps the digit group. -/
def trySha1 (ds : String) (r1 : Str) : Option (Str × Str) :=
  match matchCI (ds ++ "-").toList r1 with
  | none => none
  | some r2 =>
    let body := r2.takeWhile isB64
    if body.isEmpty then none
    else
      match eatEqQuote (r2.dropWhile isB64) with
      | none => none
      | some rest => some (("'sha" ++ ds ++ "-VALUE'").toList, rest)

/-- Attempt the pattern `'sha(256|384|512)-[A-Za-z0-9+/\-_]+={0,2}'`. -/
def trySha (xs : Str) : Option (Str × Str) :=
  match matchCI "'sha".toList xs with
  | none => none
  | some r1 =>
    match trySha1 "256" r1 with
    | some r => some r
    | none =>
      match trySha1 "384" r1 with
      | some r => some r
      | none => trySha1 "512" r1

/-- Attempt the pattern `report-(uri|to)[^;,]*`; the replacement
    `report-\1 REPORT_URI` keeps the captured group in its original case. -/
def tryReport (xs : Str) : Option (Str × Str) :=
  match matchCI "report-".toList xs with
  | none => none
  | some r1 =>
    let k : Option Nat :=
      match matchCI "uri".toList r1 with
      | some _ => some 3
      | none =>
        match matchCI "to".toList r1 with
        | some _ => some 2
        | none => none
    match k with
    | none => none
    | some k =>
      let grp := r1.take k
      let r2 := r1.drop k
      let rest := r2.dropWhile (fun c => !(lowerChar c = ';' || lowerChar c = ','))
      some ("report-".toList ++ grp ++ " REPORT_URI".toList, rest)

/-- `re.sub` driver: scan left to right, replacing non-overlapping matches.
    The fuel starts at the input length; every step consumes at least one input
    character, so the fuel never runs out. -/
def scanSub (tryPat : Str → Option (Str × Str)) : Nat → Str → Str
  | 0, xs => xs
  | _ + 1, [] => []
  | n + 1, c :: cs =>
    match tryPat (c :: cs) with
    | some (repl, rest) => repl ++ scanSub tryPat n rest
    | none => c :: scanSub tryPat n cs

/-- `re.sub(r"'nonce-[A-Za-z0-9+/\-_]+={0,2}'", "'nonce-VALUE'", value, flags=I)`. -/
def reSubNonce (xs : Str) : Str := scanSub tryNonce xs.length xs

/-- `re.sub(r"'sha(256|384|512)-[A-Za-z0-9+/\-_]+={0,2}'", r"'sha\1-VALUE'", value, flags=I)`. -/
def reSubSha (xs : Str) : Str := scanSub trySha xs.length xs

/-- `re.sub(r"report-(uri|to)[^;,]*", r"report-\1 REPORT_URI", value, flags=I)`. -/
def reSubReport (xs : Str) : Str := scanSub tryReport xs.length xs

/-! ### Content-Security-Policy normalization (`normalize_csp`) -/

/-- One directive of one policy: the inner loop body of `normalize_csp`.
    Returns `none` for an empty directive name or a name outside
    `valid_directives` (when that filter is given). -/
def normCspDirective (valid_directives : Option (List Str)) (directive : Str) : Option Str :=
  match pySplitWs (pyStrip directive) with
  | [] => none
  | name :: toks =>
    if (match valid_directives with
        | none => false
        | some vd => !vd.contains name) then none
    else some (joinSep ' ' (name :: insSortStr toks))

/-- `normalize_csp(value, valid_directives)`: redact nonce/hash/report values,
    lower-case, then sort tokens within directives, directives within policies,
    and policies within the value. -/
def normalize_csp_with (valid_directives : Option (List Str)) (value : Str) : Str :=
  let v := reSubReport (reSubSha (reSubNonce value))
  let policies := (splitSep ',' (pyLower v)).map fun policy =>
    joinSep ';' (insSortStr
      ((splitSep ';' (pyStrip policy)).filterMap (normCspDirective valid_directives)))
  joinSep ',' (insSortStr policies)

/-- `normalize_csp(value)` with the default `valid_directives=None`. -/
def normalize_csp (value : Str) : Str := normalize_csp_with none value

/-! ### Security level enums (`security_enums.py`) -/

/-- HSTS max-age level. -/
inductive HSTSAge | DISABLED | ABSENT | LOW | BIG
deriving DecidableEq

/-- Numeric enum value of `HSTSAge` (`DISABLED = -1`). -/
def HSTSAge.val : HSTSAge → Int
  | .DISABLED => -1
  | .ABSENT => 0
  | .LOW => 1
  | .BIG => 2

/-- HSTS includeSubDomains level. -/
inductive HSTSSub | ABSENT | ACTIVE
deriving DecidableEq

/-- `HSTSSub(bool)` as in Python: `False ↦ ABSENT`, `True ↦ ACTIVE`. -/
def HSTSSub.ofBool : Bool → HSTSSub
  | false => .ABSENT
  | true => .ACTIVE

/-- HSTS preload level. -/
inductive HSTSPreload | ABSENT | ACTIVE
deriving DecidableEq

/-- `HSTSPreload(bool)` as in Python. -/
def HSTSPreload.ofBool : Bool → HSTSPreload
  | false => .ABSENT
  | true => .ACTIVE

/-- X-Frame-Options level. -/
inductive XFO | UNSAFE | SAMEORIGIN | DENY
deriving DecidableEq

/-- CSP XSS-mitigation level. -/
inductive CspXSS | UNSAFE | SAFE
deriving DecidableEq

/-- Numeric enum value of `CspXSS`. -/
def CspXSS.val : CspXSS → Int
  | .UNSAFE => 0
  | .SAFE => 1

/-- CSP framing-control level. -/
inductive CspFA | UNSAFE | CONSTRAINED | SELF | NONE
deriving DecidableEq

/-- Numeric enum value of `CspFA`. -/
def CspFA.val : CspFA → Int
  | .UNSAFE => 0
  | .CONSTRAINED => 1
  | .SELF => 2
  | .NONE => 3

/-- CSP TLS-enforcement level. -/
inductive CspTLS | UNSAFE | BLOCK_ALL_MIXED_CONTENT | UPGRADE_INSECURE_REQUESTS
deriving DecidableEq

/-- Numeric enum value of `CspTLS`. -/
def CspTLS.val : CspTLS → Int
  | .UNSAFE => 0
  | .BLOCK_ALL_MIXED_CONTENT => 1
  | .UPGRADE_INSECURE_REQUESTS => 2

/-- Referrer-Policy level. -/
inductive RP
  | UNSAFE_URL | SAME_ORIGIN | NO_REFERRER | NO_REFERRER_WHEN_DOWNGRADE
  | ORIGIN | ORIGIN_WHEN_CROSS_ORIGIN | STRICT_ORIGIN | STRICT_ORIGIN_WHEN_CROSS_ORIGIN
deriving DecidableEq

/-- Cross-Origin-Opener-Policy level. -/
inductive COOP | UNSAFE_NONE | SAME_ORIGIN | SAME_ORIGIN_ALLOW_POPUPS
deriving DecidableEq

/-- Cross-Origin-Resource-Policy level. -/
inductive CORP | CROSS_ORIGIN | SAME_SITE | SAME_ORIGIN
deriving DecidableEq

/-- Cross-Origin-Embedder-Policy level. -/
inductive COEP | UNSAFE_NONE | REQUIRE_CORP | CREDENTIALLESS
deriving DecidableEq

/-- `max_enum(first, second)`: the enum member with the larger numeric value
    (`first` on ties), given the enum's value function. -/
def max_enum {α : Type} (val : α → Int) (first second : α) : α :=
  if val second ≤ val first then first else second

/-! ### Origin -/

/-- `Origin(protocol, host, port)` — the canonical origin triple. -/
structure Origin where
  protocol : Str
  host : Str
  port : Option Str
deriving DecidableEq

/-- `str(origin)`: `protocol://host` or `protocol://host:port`. -/
def originStr (o : Origin) : Str :=
  match o.port with
  | none => o.protocol ++ "://".toList ++ o.host
  | some p => o.protocol ++ "://".toList ++ o.host ++ ":".toList ++ p

/-! ### CSP parsing (`parse_csp`) -/

/-- A parsed policy: directive name → token set, first occurrence of a
    directive name wins (`CSP.add_directive`).  Token sets are kept as lists and
    consumed with set-like operations only. -/
abbrev CSPDict := List (Str × List Str)

/-- Case-insensitive directive lookup (the `CSP` class is a
    `CaseInsensitiveDict`). -/
def cspGet (name : Str) (d : CSPDict) : Option (List Str) :=
  (d.find? (fun kv => pyLower kv.1 == pyLower name)).map (fun kv => kv.2)

/-- `CSP.add_directive`: keep only the first occurrence of a directive name. -/
def addDirective (d : CSPDict) (name : Str) (vals : List Str) : CSPDict :=
  if (cspGet name d).isSome then d else d ++ [(name, vals)]

/-- `parse_csp(value)`: split a header value into comma-separated policies, each
    a mapping of directive name to source-token set. -/
def parse_csp (value : Str) : List CSPDict :=
  (splitSep ',' (pyStrip value)).map fun policy =>
    (splitSep ';' (pyStrip policy)).foldl (fun csp directive =>
      match pySplitWs (pyStrip directive) with
      | [] => csp
      | name :: toks => addDirective csp name toks) []

/-! ### CSP XSS-mitigation classification -/

/-- The trusted escapes recognized next to `'unsafe-inline'`. -/
def secure_expressions : List Str :=
  ["'nonce-VALUE'", "'sha256-VALUE'", "'sha384-VALUE'", "'sha512-VALUE'",
   "'strict-dynamic'"].map String.toList

/-- `is_unsafe_inline_active(directive)`. -/
def is_unsafe_inline_active (directive : List Str) : Bool :=
  directive.contains "'unsafe-inline'".toList &&
    !(directive.any (fun t => secure_expressions.contains t))

/-- The broad sources that make script execution unsafe without
    `'strict-dynamic'`. -/
def xss_unsafe_expressions : List Str :=
  ["*", "http:", "http://", "http://*", "https:", "https://", "https://*",
   "data:"].map String.toList

/-- `classify_xss_mitigation(csp)`. -/
def classify_xss_mitigation (csp : CSPDict) : CspXSS :=
  match (cspGet "script-src".toList csp).orElse
      (fun _ => cspGet "default-src".toList csp) with
  | none => CspXSS.UNSAFE
  | some directive =>
    if is_unsafe_inline_active directive then CspXSS.UNSAFE
    else if directive.any (fun t => xss_unsafe_expressions.contains t) &&
        !directive.contains "'strict-dynamic'".toList then CspXSS.UNSAFE
    else CspXSS.SAFE

/-- `classify_policy_xss(policy)`. -/
def classify_policy_xss (policy : CSPDict) : CspXSS :=
  if (cspGet "script-src".toList policy).isSome ||
      (cspGet "default-src".toList policy).isSome then
    classify_xss_mitigation policy
  else CspXSS.UNSAFE

/-- `classify_csp_xss(value)`: best (max) XSS classification over all policies. -/
def classify_csp_xss (value : Str) : CspXSS :=
  (parse_csp (normalize_csp value)).foldl
    (fun res policy => max_enum CspXSS.val res (classify_policy_xss policy))
    CspXSS.UNSAFE

/-! ### CSP framing-control classification

`classify_framing_control` and `classify_permissions_policy` dereference their
`origin` argument; `classify_headers` may hand them `None`.  The dereference is
modelled with `Except String`, an `AttributeError` being the error case. -/

/-- The broad wildcard sources for `frame-ancestors`. -/
def fa_unsafe_expressions : List Str :=
  ["*", "http:", "http://", "http://*", "https:", "https://", "https://*"].map
    String.toList

/-- The seven self-referential source forms accepted for `SELF`. -/
def fa_self_expressions (o : Origin) : List Str :=
  let secure_origin :=
    match o.port with
    | none => "https://".toList ++ o.host
    | some p => "https://".toList ++ o.host ++ ":".toList ++ p
  let domain :=
    match o.port with
    | none => o.host
    | some p => o.host ++ ":".toList ++ p
  ["'self'".toList, originStr o, originStr o ++ "/".toList,
   secure_origin, secure_origin ++ "/".toList, domain, domain ++ "/".toList]

/-- `classify_framing_control(directive, origin)`; touching the origin with
    `origin=None` raises. -/
def classify_framing_control (directive : List Str) (origin : Option Origin) :
    Except String CspFA :=
  if directive.isEmpty || (!directive.isEmpty &&
      directive.all (fun t => t == "'none'".toList)) then
    Except.ok CspFA.NONE
  else
    match origin with
    | none => Except.error "AttributeError"
    | some o =>
      if directive.all (fun s => (fa_self_expressions o).contains s) then
        Except.ok CspFA.SELF
      else if directive.any (fun s => fa_unsafe_expressions.contains s) then
        Except.ok CspFA.UNSAFE
      else Except.ok CspFA.CONSTRAINED

/-- `classify_policy_fa(policy, origin)`. -/
def classify_policy_fa (policy : CSPDict) (origin : Option Origin) :
    Except String CspFA :=
  match cspGet "frame-ancestors".toList policy with
  | some directive => classify_framing_control directive origin
  | none => Except.ok CspFA.UNSAFE

/-- `classify_csp_fa(value, origin)`: best (max) framing classification over all
    policies. -/
def classify_csp_fa (value : Str) (origin : Option Origin) : Except String CspFA :=
  (parse_csp (normalize_csp value)).foldlM
    (fun res policy => do
      let c ← classify_policy_fa policy origin
      pure (max_enum CspFA.val res c))
    CspFA.UNSAFE

/-! ### CSP TLS-enforcement classification -/

/-- `classify_policy_tls(policy)`. -/
def classify_policy_tls (policy : CSPDict) : CspTLS :=
  if (cspGet "block-all-mixed-content".toList policy).isSome then
    CspTLS.BLOCK_ALL_MIXED_CONTENT
  else if (cspGet "upgrade-insecure-requests".toList policy).isSome then
    CspTLS.UPGRADE_INSECURE_REQUESTS
  else CspTLS.UNSAFE

/-- `classify_csp_tls(value)`. -/
def classify_csp_tls (value : Str) : CspTLS :=
  (parse_csp (normalize_csp value)).foldl
    (fun res policy => max_enum CspTLS.val res (classify_policy_tls policy))
    CspTLS.UNSAFE

/-- `classify_csp(value, origin)`: the three independent use-cases. -/
def classify_csp (value : Str) (origin : Option Origin) :
    Except String (CspXSS × CspFA × CspTLS) := do
  let fa ← classify_csp_fa value origin
  pure (classify_csp_xss value, fa, classify_csp_tls value)

/-! ### Strict-Transport-Security -/

/-- `normalize_hsts(value)`: only the first comma-separated instance counts;
    lower-case, split on `;`, strip and sort the directive tokens. -/
def normalize_hsts (value : Str) : Str :=
  let first := (splitSep ',' (pyLower value)).headD []
  joinSep ';' (insSortStr ((splitSep ';' first).map pyStrip))

/-- `classify_hsts_age(max_age)` (`max_age` is a parsed decimal, hence a `Nat`;
    `max_age <= 0` means `max_age = 0`). -/
def classify_hsts_age (max_age : Option Nat) : HSTSAge :=
  match max_age with
  | none => HSTSAge.ABSENT
  | some v =>
    if v ≤ 0 then HSTSAge.DISABLED
    else if v < 60 * 60 * 24 * 365 then HSTSAge.LOW
    else HSTSAge.BIG

/-- The directive name of an HSTS token: `token.split('=')[0]`. -/
def hstsName (token : Str) : Str := (splitSep '=' token).headD []

/-- Decimal digit test. -/
def isDigitCh (c : Char) : Bool := decide ('0' ≤ c) && decide (c ≤ '9')

/-- Numeric value of a digit string. -/
def digitsToNat (s : Str) : Nat :=
  s.foldl (fun acc c => acc * 10 + (c.toNat - '0'.toNat)) 0

/-- `re.match(r'max-age=("?)(\d+)\1$', token)`: the value after `max-age=` is a
    nonempty digit run, optionally wrapped in one pair of double quotes; returns
    the parsed number. -/
def parseMaxAge (token : Str) : Option Nat :=
  match matchCI "max-age=".toList token with
  | none => none
  | some rest =>
    match rest with
    | [] => none
    | c :: cs =>
      if c = quoteD then
        let ds := cs.takeWhile isDigitCh
        if ds.isEmpty then none
        else if cs.dropWhile isDigitCh = [quoteD] then some (digitsToNat ds)
        else none
      else
        let ds := rest.takeWhile isDigitCh
        if ds.isEmpty then none
        else if rest.dropWhile isDigitCh = [] then some (digitsToNat ds)
        else none

/-- The early-return value for spec violations: the triple of `ABSENT`s. -/
def hstsAbsentTriple : HSTSAge × HSTSSub × HSTSPreload :=
  (HSTSAge.ABSENT, HSTSSub.ABSENT, HSTSPreload.ABSENT)

/-- The final `return` of `classify_hsts`. -/
def hstsFinish (max_age : Option Nat) (include_sub_domains preload : Bool) :
    HSTSAge × HSTSSub × HSTSPreload :=
  let classified := classify_hsts_age max_age
  (classified,
   HSTSSub.ofBool (include_sub_domains &&
     !(classified = HSTSAge.ABSENT || classified = HSTSAge.DISABLED)),
   HSTSPreload.ofBool (preload && include_sub_domains &&
     classified = HSTSAge.BIG))

/-- The directive loop of `classify_hsts`, carrying `max_age`,
    `include_sub_domains`, `preload` and `seen_directives`. -/
def hstsLoop : List Str → List Str → Option Nat → Bool → Bool →
    HSTSAge × HSTSSub × HSTSPreload
  | [], _, max_age, include_sub_domains, preload =>
    hstsFinish max_age include_sub_domains preload
  | token :: rest, seen, max_age, include_sub_domains, preload =>
    let directive := hstsName token
    if seen.contains directive then hstsAbsentTriple
    else if directive = "max-age".toList then
      match parseMaxAge token with
      | none => hstsAbsentTriple
      | some v => hstsLoop rest (directive :: seen) (some v) include_sub_domains preload
    else if directive = "includesubdomains".toList then
      hstsLoop rest (directive :: seen) max_age true preload
    else if directive = "preload".toList then
      hstsLoop rest (directive :: seen) max_age include_sub_domains true
    else hstsLoop rest (directive :: seen) max_age include_sub_domains preload

/-- `classify_hsts(value)`. -/
def classify_hsts (value : Str) : HSTSAge × HSTSSub × HSTSPreload :=
  hstsLoop (splitSep ';' (normalize_hsts value)) [] none false false

/-! ### X-Frame-Options -/

/-- `normalize_xfo(value)`. -/
def normalize_xfo (value : Str) : Str :=
  joinSep ',' (insSortStr ((splitSep ',' (pyLower value)).map pyStrip))

/-- `classify_xfo(value)`. -/
def classify_xfo (value : Str) : XFO :=
  let n := normalize_xfo value
  if n = "deny".toList then XFO.DENY
  else if n = "sameorigin".toList then XFO.SAMEORIGIN
  else XFO.UNSAFE

/-! ### Permissions-Policy -/

/-- The `(.*)\)` tail of the allowlist patterns: greedy up to the last `)` of
    `xs`; `none` when `xs` has no `)` at all. -/
def beforeLastParen (xs : Str) : Option Str :=
  match xs.reverse.dropWhile (fun c => c ≠ ')') with
  | [] => none
  | _ :: t => some t.reverse

/-- `re.match(r"([^=]+)=(\*|\((.*)\))", d)` of `normalize_permissions_policy`:
    `none` for no match, `some (name, none)` for a `name=*` allowlist,
    `some (name, some content)` for a `name=(content)` allowlist. -/
def ppMatchNorm (d : Str) : Option (Str × Option Str) :=
  let name := d.takeWhile (fun c => c ≠ '=')
  if name.isEmpty then none
  else
    match d.dropWhile (fun c => c ≠ '=') with
    | [] => none
    | _ :: rest =>
      match rest with
      | [] => none
      | c :: r2 =>
        if c = '*' then some (name, none)
        else if c = '(' then
          match beforeLastParen r2 with
          | none => none
          | some content => some (name, some content)
        else none

/-- `re.match(r"([^=]+)=\((.*)\)", d)` of `classify_permissions_policy`. -/
def ppMatchClassify (d : Str) : Option (Str × Str) :=
  let name := d.takeWhile (fun c => c ≠ '=')
  if name.isEmpty then none
  else
    match d.dropWhile (fun c => c ≠ '=') with
    | [] => none
    | _ :: rest =>
      match rest with
      | [] => none
      | c :: r2 =>
        if c = '(' then
          match beforeLastParen r2 with
          | none => none
          | some content => some (name, content)
        else none

/-- The loop body of `normalize_permissions_policy`: the canonical string of
    one comma-separated entry, or `none` when the regex does not match. -/
def ppNormDirective (directive : Str) : Option Str :=
  match ppMatchNorm (pyStrip directive) with
  | none => none
  | some (name, none) => some (name ++ "=*".toList)
  | some (name, some content) =>
    let toks := dedupStr (pySplitWs (pyStrip content))
    some (name ++ "=(".toList ++ joinSep ' ' (insSortStr toks) ++ ")".toList)

/-- `normalize_permissions_policy(value)`. -/
def normalize_permissions_policy (value : Str) : Str :=
  joinSep ',' (insSortStr
    ((splitSep ',' (pyLower value)).filterMap ppNormDirective))

/-- The six quoted self-referential allowlist entries derived from the origin. -/
def pp_self_expressions (o : Origin) : List Str :=
  let secure_origin :=
    match o.port with
    | none => "https://".toList ++ o.host
    | some p => "https://".toList ++ o.host ++ ":".toList ++ p
  let domain :=
    match o.port with
    | none => o.host
    | some p => o.host ++ ":".toList ++ p
  [[quoteD] ++ originStr o ++ [quoteD],
   [quoteD] ++ originStr o ++ "/".toList ++ [quoteD],
   [quoteD] ++ secure_origin ++ [quoteD],
   [quoteD] ++ secure_origin ++ "/".toList ++ [quoteD],
   [quoteD] ++ domain ++ [quoteD],
   [quoteD] ++ domain ++ "/".toList ++ [quoteD]]

/-- `classify_permissions_policy(value, origin)`: drop features allowing `*`,
    replace origin-matching entries by `self`, and produce the canonical sorted
    string; dereferences `origin` for every parsed non-`*` entry. -/
def classify_permissions_policy (value : Str) (origin : Option Origin) :
    Except String Str := do
  let directives ← (splitSep ',' (pyLower value)).foldlM
    (fun acc directive => do
      match ppMatchClassify (pyStrip directive) with
      | none => pure acc
      | some (name, content0) =>
        let content := dedupStr (pySplitWs (pyStrip content0))
        if content.contains "*".toList then pure acc
        else
          match origin with
          | none => Except.error "AttributeError"
          | some o =>
            let selfExprs := pp_self_expressions o
            let content2 :=
              if content.any (fun e => selfExprs.contains e) then
                let removed := content.filter (fun e => !selfExprs.contains e)
                if removed.contains "self".toList then removed
                else removed ++ ["self".toList]
              else content
            pure (acc ++ [name ++ "=(".toList ++
              joinSep ' ' (insSortStr content2) ++ ")".toList]))
    ([] : List Str)
  pure (joinSep ',' (insSortStr directives))

/-! ### Referrer-Policy -/

/-- `normalize_referrer_policy(value)`: lower-case, strip each comma token,
    keep the order. -/
def normalize_referrer_policy (value : Str) : Str :=
  joinSep ',' ((splitSep ',' (pyLower value)).map pyStrip)

/-- The eight recognized referrer policy values. -/
def REFERRER_POLICY_VALUES : List Str :=
  ["unsafe-url", "same-origin", "no-referrer", "no-referrer-when-downgrade",
   "origin", "origin-when-cross-origin", "strict-origin",
   "strict-origin-when-cross-origin"].map String.toList

/-- The final `match` of `classify_referrer_policy`; it has no default case, so
    an unexpected value falls through (modelled as `none`). -/
def rpMatch (policy : Str) : Option RP :=
  if policy = "unsafe-url".toList then some RP.UNSAFE_URL
  else if policy = "same-origin".toList then some RP.SAME_ORIGIN
  else if policy = "no-referrer".toList then some RP.NO_REFERRER
  else if policy = "no-referrer-when-downgrade".toList then
    some RP.NO_REFERRER_WHEN_DOWNGRADE
  else if policy = "origin".toList then some RP.ORIGIN
  else if policy = "origin-when-cross-origin".toList then
    some RP.ORIGIN_WHEN_CROSS_ORIGIN
  else if policy = "strict-origin".toList then some RP.STRICT_ORIGIN
  else if policy = "strict-origin-when-cross-origin".toList || policy = [] then
    some RP.STRICT_ORIGIN_WHEN_CROSS_ORIGIN
  else none

/-- `classify_referrer_policy(value)`: the last recognized token wins. -/
def classify_referrer_policy (value : Str) : Option RP :=
  rpMatch ((splitSep ',' (normalize_referrer_policy value)).foldl
    (fun policy token =>
      if REFERRER_POLICY_VALUES.contains token then token else policy)
    [])

/-! ### Cross-Origin-Opener / Resource / Embedder-Policy -/

/-- `normalize_coop(value)`: strip each `;`-segment, keep order and case. -/
def normalize_coop (value : Str) : Str :=
  joinSep ';' ((splitSep ';' value).map pyStrip)

/-- `classify_coop(value)`: match on the first `;`-segment. -/
def classify_coop (value : Str) : COOP :=
  let directive := (splitSep ';' (normalize_coop value)).headD []
  if directive = "same-origin".toList then COOP.SAME_ORIGIN
  else if directive = "same-origin-allow-popups".toList then
    COOP.SAME_ORIGIN_ALLOW_POPUPS
  else COOP.UNSAFE_NONE

/-- `normalize_corp(value)`: trim whitespace only. -/
def normalize_corp (value : Str) : Str := pyStrip value

/-- `classify_corp(value)`. -/
def classify_corp (value : Str) : CORP :=
  let directive := normalize_corp value
  if directive = "same-origin".toList then CORP.SAME_ORIGIN
  else if directive = "same-site".toList then CORP.SAME_SITE
  else CORP.CROSS_ORIGIN

/-- `normalize_coep(value)`: strip each `;`-segment, keep order and case. -/
def normalize_coep (value : Str) : Str :=
  joinSep ';' ((splitSep ';' value).map pyStrip)

/-- `classify_coep(value)` (the source file, too, applies `normalize_coop`,
    which is identical to `normalize_coep`). -/
def classify_coep (value : Str) : COEP :=
  let directive := (splitSep ';' (normalize_coop value)).headD []
  if directive = "credentialless".toList then COEP.CREDENTIALLESS
  else if directive = "require-corp".toList then COEP.REQUIRE_CORP
  else COEP.UNSAFE_NONE

/-! ### Snapshot Stability State Machine (`analyze_stability.py`)

One day's database row is `(end_url, day, status_code)`; a day with no row is
`none`.  The source compares `day` against the three-element tuple
`(DATE-1day, DATE, DATE+1day)`; the `DATE` constant and the date arithmetic are
imported from outside the analysis sources, so the three tolerated day strings
are passed as the abstract parameter `tol` (modelled from the spec's "±1 day
tolerance" window). -/

/-- Snapshot stability status. -/
inductive Status | MISSING | ADDED | MODIFIED | REMOVED | UNMODIFIED
deriving DecidableEq

/-- One stored archive observation row: `end_url`, the 8-character capture day
    extracted from `end_url`, and the HTTP status code (200 or 404). -/
structure SnapRow where
  end_url : Str
  day : Str
  status_code : Nat
deriving DecidableEq

/-- One iteration of the per-day loop of `compute_archive_snapshot_stability`:
    from `(previous_status, previous_snapshot)` and the day's row (if any) to
    the day's `(status, previous_snapshot)`. -/
def snapshotStep (tol : List Str) (st : Status × Option Str)
    (obs : Option SnapRow) : Status × Option Str :=
  match obs with
  | none =>
    (match st.1 with
     | Status.ADDED | Status.MODIFIED => Status.UNMODIFIED
     | Status.REMOVED => Status.MISSING
     | s => s, st.2)
  | some row =>
    if ¬ tol.contains row.day then
      (match st.1 with
       | Status.ADDED | Status.MODIFIED => Status.UNMODIFIED
       | Status.REMOVED => Status.MISSING
       | s => s, st.2)
    else if row.status_code = 404 then
      (match st.1 with
       | Status.ADDED | Status.MODIFIED | Status.UNMODIFIED => Status.REMOVED
       | _ => Status.MISSING, st.2)
    else
      (match st.1 with
       | Status.MISSING | Status.REMOVED => Status.ADDED
       | _ => if st.2 ≠ some row.end_url then Status.MODIFIED
              else Status.UNMODIFIED,
       some row.end_url)

/-- The per-day status timeline of one resource, starting from a given machine
    state (`(MISSING, None)` at the first day). -/
def snapshotTimeline (tol : List Str) (st : Status × Option Str) :
    List (Option SnapRow) → List Status
  | [] => []
  | obs :: rest =>
    let st2 := snapshotStep tol st obs
    st2.1 :: snapshotTimeline tol st2 rest

/-! ### Spec-side definitions (stated from the specification's words, for the
refinement claims) -/

/-- The five event kinds of the spec's transition table. -/
inductive SnapEvent
  | noData | hitNew | hitSame | hitOutOfTolerance | miss404
deriving DecidableEq

/-- Modelled from the spec: the transition table of §4.4, row by row. -/
def specTransition : Status → SnapEvent → Status
  | Status.MISSING, SnapEvent.noData => Status.MISSING
  | Status.MISSING, SnapEvent.hitNew => Status.ADDED
  | Status.MISSING, SnapEvent.hitSame => Status.ADDED
  | Status.MISSING, SnapEvent.hitOutOfTolerance => Status.MISSING
  | Status.MISSING, SnapEvent.miss404 => Status.MISSING
  | Status.ADDED, SnapEvent.noData => Status.UNMODIFIED
  | Status.ADDED, SnapEvent.hitNew => Status.MODIFIED
  | Status.ADDED, SnapEvent.hitSame => Status.UNMODIFIED
  | Status.ADDED, SnapEvent.hitOutOfTolerance => Status.UNMODIFIED
  | Status.ADDED, SnapEvent.miss404 => Status.REMOVED
  | Status.MODIFIED, SnapEvent.noData => Status.UNMODIFIED
  | Status.MODIFIED, SnapEvent.hitNew => Status.MODIFIED
  | Status.MODIFIED, SnapEvent.hitSame => Status.UNMODIFIED
  | Status.MODIFIED, SnapEvent.hitOutOfTolerance => Status.UNMODIFIED
  | Status.MODIFIED, SnapEvent.miss404 => Status.REMOVED
  | Status.UNMODIFIED, SnapEvent.noData => Status.UNMODIFIED
  | Status.UNMODIFIED, SnapEvent.hitNew => Status.MODIFIED
  | Status.UNMODIFIED, SnapEvent.hitSame => Status.UNMODIFIED
  | Status.UNMODIFIED, SnapEvent.hitOutOfTolerance => Status.UNMODIFIED
  | Status.UNMODIFIED, SnapEvent.miss404 => Status.REMOVED
  | Status.REMOVED, SnapEvent.noData => Status.MISSING
  | Status.REMOVED, SnapEvent.hitNew => Status.ADDED
  | Status.REMOVED, SnapEvent.hitSame => Status.ADDED
  | Status.REMOVED, SnapEvent.hitOutOfTolerance => Status.MISSING
  | Status.REMOVED, SnapEvent.miss404 => Status.MISSING

/-- The event of one day's observation: absent row is `NoData`; a row captured
    outside the tolerated window is an out-of-tolerance `Hit`; a tolerated 404
    is `Miss404`; a tolerated 200 is a `Hit` with content identity compared
    against the last `Hit`'s. -/
def eventOf (tol : List Str) (lastHit : Option Str) (obs : Option SnapRow) :
    SnapEvent :=
  match obs with
  | none => SnapEvent.noData
  | some row =>
    if ¬ tol.contains row.day then SnapEvent.hitOutOfTolerance
    else if row.status_code = 404 then SnapEvent.miss404
    else if lastHit = some row.end_url then SnapEvent.hitSame
    else SnapEvent.hitNew

/-- Modelled from the spec (§4.2, Referrer-Policy): scan the comma-separated,
    lowercased, trimmed token list in order and keep the last recognized value;
    empty / none recognized gives the browser default. -/
def specReferrerPolicy (value : Str) : RP :=
  (((splitSep ',' (pyLower value)).map pyStrip).foldl
    (fun acc token =>
      if token = "unsafe-url".toList then RP.UNSAFE_URL
      else if token = "same-origin".toList then RP.SAME_ORIGIN
      else if token = "no-referrer".toList then RP.NO_REFERRER
      else if token = "no-referrer-when-downgrade".toList then
        RP.NO_REFERRER_WHEN_DOWNGRADE
      else if token = "origin".toList then RP.ORIGIN
      else if token = "origin-when-cross-origin".toList then
        RP.ORIGIN_WHEN_CROSS_ORIGIN
      else if token = "strict-origin".toList then RP.STRICT_ORIGIN
      else if token = "strict-origin-when-cross-origin".toList then
        RP.STRICT_ORIGIN_WHEN_CROSS_ORIGIN
      else acc)
    RP.STRICT_ORIGIN_WHEN_CROSS_ORIGIN)

/-- Modelled from the spec (§4.2, framing control): the per-policy level as the
    claim states it — `UNSAFE` without a `frame-ancestors` directive; `NONE`
    for an empty or exactly-`{'none'}` token set; `SELF` when every token is a
    self-referential form; `UNSAFE` on any broad wildcard; else `CONSTRAINED`. -/
def specPolicyFA (o : Origin) (policy : CSPDict) : CspFA :=
  match cspGet "frame-ancestors".toList policy with
  | none => CspFA.UNSAFE
  | some tokens =>
    if tokens.isEmpty || tokens.all (fun t => t == "'none'".toList) then
      CspFA.NONE
    else if tokens.all (fun t => (fa_self_expressions o).contains t) then
      CspFA.SELF
    else if tokens.any (fun t => fa_unsafe_expressions.contains t) then
      CspFA.UNSAFE
    else CspFA.CONSTRAINED

/-! ### Character-case lemmas -/

/-- The ASCII uppercase letters. -/
def ucChars : List Char :=
  ['A','B','C','D','E','F','G','H','I','J','K','L','M','N','O','P','Q','R',
   'S','T','U','V','W','X','Y','Z']

/-- The ASCII lowercase letters. -/
def lcChars : List Char :=
  ['a','b','c','d','e','f','g','h','i','j','k','l','m','n','o','p','q','r',
   's','t','u','v','w','x','y','z']

theorem lowerChar_of_not_uc {c : Char} (h : c ∉ ucChars) : lowerChar c = c := by
  unfold lowerChar
  split <;> simp_all [ucChars]

theorem upperChar_of_not_lc {c : Char} (h : c ∉ lcChars) : upperChar c = c := by
  unfold upperChar
  split <;> simp_all [lcChars]

theorem lowerChar_idem (c : Char) : lowerChar (lowerChar c) = lowerChar c := by
  by_cases h : c ∈ ucChars
  · fin_cases h <;> rfl
  · simp only [lowerChar_of_not_uc h]

theorem lowerChar_upperChar (c : Char) : lowerChar (upperChar c) = lowerChar c := by
  by_cases h : c ∈ lcChars
  · fin_cases h <;> rfl
  · rw [upperChar_of_not_lc h]

/-- A character whose lower case is a non-letter `s` is `s` itself. -/
theorem eq_of_lowerChar_eq {c s : Char} (hs : s ∉ lcChars)
    (h : lowerChar c = s) : c = s := by
  by_cases hc : c ∈ ucChars
  · exfalso
    fin_cases hc <;> (rw [← h] at hs; exact hs (by decide))
  · rwa [lowerChar_of_not_uc hc] at h

/-- For a non-letter `s`, lower-casing does not affect being equal to `s`. -/
theorem lowerChar_eq_iff {s : Char} (hs1 : s ∉ lcChars) (hs2 : s ∉ ucChars)
    (c : Char) : lowerChar c = s ↔ c = s := by
  constructor
  · exact eq_of_lowerChar_eq hs1
  · rintro rfl
    exact lowerChar_of_not_uc hs2

/-! ### Lemmas about `splitSep` and `joinSep` -/

theorem splitSep_ne_nil (sep : Char) (xs : Str) : splitSep sep xs ≠ [] := by
  induction xs with
  | nil => simp [splitSep]
  | cons c cs ih =>
    simp only [splitSep]
    split
    · simp
    · cases h : splitSep sep cs <;> simp

theorem mem_of_mem_splitSep {sep : Char} {xs p : Str}
    (hp : p ∈ splitSep sep xs) {c : Char} (hc : c ∈ p) : c ∈ xs := by
  induction xs generalizing p with
  | nil =>
    simp only [splitSep, List.mem_singleton] at hp
    subst hp
    cases hc
  | cons d ds ih =>
    simp only [splitSep] at hp
    split at hp
    · rcases List.mem_cons.mp hp with h | h
      · subst h; cases hc
      · exact List.mem_cons_of_mem _ (ih h hc)
    · rename_i hd
      cases hsp : splitSep sep ds with
      | nil => exact absurd hsp (splitSep_ne_nil sep ds)
      | cons q qs =>
        rw [hsp] at hp
        rcases List.mem_cons.mp hp with h | h
        · subst h
          rcases List.mem_cons.mp hc with h2 | h2
          · exact h2 ▸ List.mem_cons_self d ds
          · exact List.mem_cons_of_mem _ (ih (hsp ▸ List.mem_cons_self q qs) h2)
        · exact List.mem_cons_of_mem _ (ih (hsp ▸ List.mem_cons_of_mem q h) hc)

theorem sep_not_mem_splitSep {sep : Char} {xs p : Str}
    (hp : p ∈ splitSep sep xs) : sep ∉ p := by
  induction xs generalizing p with
  | nil =>
    simp only [splitSep, List.mem_singleton] at hp
    subst hp
    simp
  | cons d ds ih =>
    simp only [splitSep] at hp
    split at hp
    · rcases List.mem_cons.mp hp with h | h
      · subst h; simp
      · exact ih h
    · rename_i hd
      cases hsp : splitSep sep ds with
      | nil => exact absurd hsp (splitSep_ne_nil sep ds)
      | cons q qs =>
        rw [hsp] at hp
        rcases List.mem_cons.mp hp with h | h
        · subst h
          intro hmem
          rcases List.mem_cons.mp hmem with h2 | h2
          · exact hd h2.symm
          · exact ih (hsp ▸ List.mem_cons_self q qs) h2
        · exact ih (hsp ▸ List.mem_cons_of_mem q h)

/-- Splitting a separator-free string gives one chunk. -/
theorem splitSep_of_not_mem {sep : Char} {p : Str} (h : sep ∉ p) :
    splitSep sep p = [p] := by
  induction p with
  | nil => rfl
  | cons c cs ih =>
    have hc : ¬ c = sep := fun hcs => h (hcs ▸ List.mem_cons_self c cs)
    have ihs := ih (fun hm => h (List.mem_cons_of_mem c hm))
    simp only [splitSep, if_neg hc, ihs]

theorem splitSep_append_sep {sep : Char} {p rest : Str} (h : sep ∉ p) :
    splitSep sep (p ++ sep :: rest) = p :: splitSep sep rest := by
  induction p with
  | nil => simp [splitSep]
  | cons c cs ih =>
    have hc : ¬ c = sep := fun hcs => h (hcs ▸ List.mem_cons_self c cs)
    have ihs := ih (fun hm => h (List.mem_cons_of_mem c hm))
    simp only [List.cons_append, splitSep, if_neg hc, List.append_eq, ihs]

/-- Splitting undoes joining for a nonempty list of separator-free chunks. -/
theorem splitSep_joinSep {sep : Char} {ps : List Str} (h1 : ps ≠ [])
    (h2 : ∀ p ∈ ps, sep ∉ p) : splitSep sep (joinSep sep ps) = ps := by
  induction ps with
  | nil => exact absurd rfl h1
  | cons p qs ih =>
    cases qs with
    | nil =>
      simp only [joinSep]
      exact splitSep_of_not_mem (h2 p (List.mem_cons_self p []))
    | cons q rs =>
      simp only [joinSep]
      rw [splitSep_append_sep (h2 p (List.mem_cons_self p _))]
      rw [ih (by simp) (fun r hr => h2 r (List.mem_cons_of_mem p hr))]

theorem mem_joinSep {sep : Char} {ps : List Str} {c : Char}
    (h : c ∈ joinSep sep ps) : c = sep ∨ ∃ p ∈ ps, c ∈ p := by
  induction ps with
  | nil => cases h
  | cons p qs ih =>
    cases qs with
    | nil =>
      exact Or.inr ⟨p, List.mem_cons_self p [], h⟩
    | cons q rs =>
      simp only [joinSep] at h
      rcases List.mem_append.mp h with h2 | h2
      · exact Or.inr ⟨p, List.mem_cons_self p _, h2⟩
      · rcases List.mem_cons.mp h2 with h3 | h3
        · exact Or.inl h3
        · rcases ih h3 with h4 | ⟨r, hr, hcr⟩
          · exact Or.inl h4
          · exact Or.inr ⟨r, List.mem_cons_of_mem p hr, hcr⟩

/-- `splitSep` commutes with a character map that preserves being the
    separator. -/
theorem splitSep_map {sep : Char} (f : Char → Char)
    (hf : ∀ c, f c = sep ↔ c = sep) (xs : Str) :
    splitSep sep (xs.map f) = (splitSep sep xs).map (List.map f) := by
  induction xs with
  | nil => rfl
  | cons c cs ih =>
    by_cases hc : c = sep
    · have hfc : f c = sep := (hf c).mpr hc
      simp only [List.map_cons, splitSep, if_pos hfc, if_pos hc, ih,
        List.map_cons, List.map_nil]
    · have hfc : ¬ f c = sep := fun h => hc ((hf c).mp h)
      cases hsp : splitSep sep cs with
      | nil => exact absurd hsp (splitSep_ne_nil sep cs)
      | cons q qs =>
        simp only [List.map_cons, splitSep, if_neg hc, if_neg hfc, ih, hsp,
          List.map_cons]

/-- `joinSep` commutes with a character map that fixes the separator. -/
theorem joinSep_map {sep : Char} (f : Char → Char) (hsep : f sep = sep)
    (ps : List Str) :
    joinSep sep (ps.map (List.map f)) = (joinSep sep ps).map f := by
  induction ps with
  | nil => rfl
  | cons p qs ih =>
    cases qs with
    | nil => rfl
    | cons q rs =>
      simp only [List.map_cons, joinSep] at ih ⊢
      rw [ih, List.map_append, List.map_cons, hsep]

/-! ### Lemmas about `pyStrip` -/

theorem mem_pyStrip {s : Str} {c : Char} (h : c ∈ pyStrip s) : c ∈ s := by
  unfold pyStrip at h
  rw [List.mem_reverse] at h
  have hsub1 : List.Sublist (((s.dropWhile pyIsSpace).reverse).dropWhile pyIsSpace)
      ((s.dropWhile pyIsSpace).reverse) := List.dropWhile_sublist pyIsSpace
  have h2 := hsub1.subset h
  rw [List.mem_reverse] at h2
  have hsub2 : List.Sublist (s.dropWhile pyIsSpace) s := List.dropWhile_sublist pyIsSpace
  exact hsub2.subset h2

theorem head_dropWhile_false (p : Char → Bool) (l : Str) {c : Char}
    (h : (l.dropWhile p).head? = some c) : p c = false := by
  induction l with
  | nil => cases h
  | cons a as ih =>
    rw [List.dropWhile_cons] at h
    split at h
    · exact ih h
    · simp only [List.head?_cons, Option.some.injEq] at h
      subst h
      simp_all

theorem dropWhile_eq_self_of_head (p : Char → Bool) (l : Str)
    (h : ∀ c, l.head? = some c → p c = false) : l.dropWhile p = l := by
  cases l with
  | nil => rfl
  | cons a as =>
    rw [List.dropWhile_cons, if_neg]
    simp [h a rfl]

/-- A suffix shares the last element. -/
theorem getLast?_of_suffix {l₁ l₂ : Str} (h : l₁ <:+ l₂) (hne : l₁ ≠ []) :
    l₂.getLast? = l₁.getLast? := by
  rcases h with ⟨t, rfl⟩
  exact List.getLast?_append_of_ne_nil t hne

theorem head_pyStrip_false (s : Str) {c : Char}
    (h : (pyStrip s).head? = some c) : pyIsSpace c = false := by
  unfold pyStrip at h
  rw [List.head?_reverse] at h
  rcases heq : (s.dropWhile pyIsSpace).reverse.dropWhile pyIsSpace with _ | ⟨a, as⟩
  · rw [heq] at h; cases h
  · have hsuf : (s.dropWhile pyIsSpace).reverse.dropWhile pyIsSpace <:+
        (s.dropWhile pyIsSpace).reverse := List.dropWhile_suffix pyIsSpace
    have hlast := getLast?_of_suffix hsuf (by rw [heq]; simp)
    rw [← hlast, List.getLast?_reverse] at h
    exact head_dropWhile_false pyIsSpace s h

theorem getLast_pyStrip_false (s : Str) {c : Char}
    (h : (pyStrip s).getLast? = some c) : pyIsSpace c = false := by
  unfold pyStrip at h
  rw [List.getLast?_reverse] at h
  exact head_dropWhile_false pyIsSpace (s.dropWhile pyIsSpace).reverse h

theorem pyStrip_eq_self {s : Str}
    (h1 : ∀ c, s.head? = some c → pyIsSpace c = false)
    (h2 : ∀ c, s.getLast? = some c → pyIsSpace c = false) : pyStrip s = s := by
  unfold pyStrip
  rw [dropWhile_eq_self_of_head pyIsSpace s h1,
    dropWhile_eq_self_of_head pyIsSpace s.reverse
      (fun c hc => h2 c (by rwa [List.head?_reverse] at hc)),
    List.reverse_reverse]

theorem pyStrip_idem (s : Str) : pyStrip (pyStrip s) = pyStrip s :=
  pyStrip_eq_self (fun _ h => head_pyStrip_false s h)
    (fun _ h => getLast_pyStrip_false s h)

/-! ### Lowered strings -/

/-- Every character of `s` is already lower case. -/
def AllLower (s : Str) : Prop := ∀ c ∈ s, lowerChar c = c

theorem pyLower_eq_self {s : Str} (h : AllLower s) : pyLower s = s := by
  induction s with
  | nil => rfl
  | cons c cs ih =>
    simp only [pyLower, List.map_cons]
    rw [h c (List.mem_cons_self c cs),
      show List.map lowerChar cs = cs from
        ih (fun d hd => h d (List.mem_cons_of_mem c hd))]

theorem allLower_pyLower (s : Str) : AllLower (pyLower s) := by
  intro c hc
  rcases List.mem_map.mp hc with ⟨d, _, rfl⟩
  exact lowerChar_idem d

theorem allLower_of_subset {s t : Str} (hsub : ∀ c ∈ t, c ∈ s)
    (h : AllLower s) : AllLower t := fun c hc => h c (hsub c hc)

/-! ### Lemmas about `insStr`, `insSortStr`, `dedupStr` -/

theorem strLe_refl (a : Str) : strLe a a = true := by
  induction a with
  | nil => rfl
  | cons c cs ih => simp [strLe, ih]

theorem strLe_total (a b : Str) : strLe a b = true ∨ strLe b a = true := by
  induction a generalizing b with
  | nil => exact Or.inl rfl
  | cons c cs ih =>
    cases b with
    | nil => exact Or.inr rfl
    | cons d ds =>
      by_cases hcd : c = d
      · subst hcd
        rcases ih ds with h | h
        · exact Or.inl (by simp [strLe, h])
        · exact Or.inr (by simp [strLe, h])
      · rcases lt_or_gt_of_ne hcd with h | h
        · exact Or.inl (by simp [strLe, if_neg hcd, h])
        · exact Or.inr (by simp [strLe, if_neg (Ne.symm hcd), h])

theorem strLe_trans {a b c : Str} (hab : strLe a b = true)
    (hbc : strLe b c = true) : strLe a c = true := by
  induction a generalizing b c with
  | nil => rfl
  | cons x xs ih =>
    cases b with
    | nil => cases hab
    | cons y ys =>
      cases c with
      | nil => cases hbc
      | cons z zs =>
        simp only [strLe] at hab hbc ⊢
        by_cases hxy : x = y
        · subst hxy
          rw [if_pos rfl] at hab
          by_cases hyz : x = z
          · subst hyz
            rw [if_pos rfl] at hbc ⊢
            exact ih hab hbc
          · rw [if_neg hyz] at hbc ⊢
            exact hbc
        · rw [if_neg hxy] at hab
          by_cases hyz : y = z
          · subst hyz
            rw [if_neg hxy]
            exact hab
          · rw [if_neg hyz] at hbc
            have hxz : x < z := lt_trans (of_decide_eq_true hab) (of_decide_eq_true hbc)
            rw [if_neg (ne_of_lt hxz), decide_eq_true hxz]

/-- `insStr` inserts an element: the result is a permutation of consing it. -/
theorem insStr_perm (x : Str) (l : List Str) : List.Perm (insStr x l) (x :: l) := by
  induction l with
  | nil => exact List.Perm.refl _
  | cons y ys ih =>
    simp only [insStr]
    split
    · exact List.Perm.refl _
    · exact ((ih.cons y).trans (List.Perm.swap x y ys))

theorem insSortStr_perm (l : List Str) : List.Perm (insSortStr l) l := by
  induction l with
  | nil => exact List.Perm.refl _
  | cons x xs ih => exact (insStr_perm x (insSortStr xs)).trans (ih.cons x)

theorem mem_insSortStr {l : List Str} {x : Str} :
    x ∈ insSortStr l ↔ x ∈ l := (insSortStr_perm l).mem_iff

/-- Sortedness (`Pairwise strLe`) of `insStr`'s output. -/
theorem pairwise_insStr {x : Str} {l : List Str}
    (h : l.Pairwise (fun a b => strLe a b = true)) :
    (insStr x l).Pairwise (fun a b => strLe a b = true) := by
  induction l with
  | nil => simp [insStr]
  | cons y ys ih =>
    rcases List.pairwise_cons.mp h with ⟨hy, hys⟩
    simp only [insStr]
    split
    · rename_i hxy
      refine List.pairwise_cons.mpr ⟨?_, h⟩
      intro b hb
      rcases List.mem_cons.mp hb with rfl | hb2
      · exact hxy
      · exact strLe_trans hxy (hy b hb2)
    · rename_i hxy
      have hyx : strLe y x = true := by
        rcases strLe_total x y with h2 | h2
        · exact absurd h2 hxy
        · exact h2
      refine List.pairwise_cons.mpr ⟨?_, ih hys⟩
      intro b hb
      rcases List.mem_cons.mp ((insStr_perm x ys).mem_iff.mp hb) with rfl | hb2
      · exact hyx
      · exact hy b hb2

theorem pairwise_insSortStr (l : List Str) :
    (insSortStr l).Pairwise (fun a b => strLe a b = true) := by
  induction l with
  | nil => simp [insSortStr]
  | cons x xs ih => exact pairwise_insStr ih

/-- Inserting into a sorted list whose head is already ≥ the element. -/
theorem insSortStr_of_pairwise {l : List Str}
    (h : l.Pairwise (fun a b => strLe a b = true)) : insSortStr l = l := by
  induction l with
  | nil => rfl
  | cons x xs ih =>
    rcases List.pairwise_cons.mp h with ⟨hx, hxs⟩
    simp only [insSortStr, ih hxs]
    cases xs with
    | nil => rfl
    | cons y ys =>
      simp only [insStr, if_pos (hx y (List.mem_cons_self y ys))]

/-- `insSortStr` is idempotent. -/
theorem insSortStr_idem (l : List Str) :
    insSortStr (insSortStr l) = insSortStr l :=
  insSortStr_of_pairwise (pairwise_insSortStr l)

theorem dedupStrGo_nodup (seen : List Str) (l : List Str) :
    (dedupStrGo seen l).Nodup ∧ ∀ x ∈ dedupStrGo seen l, x ∉ seen := by
  induction l generalizing seen with
  | nil => simp [dedupStrGo]
  | cons x xs ih =>
    simp only [dedupStrGo]
    split
    · rename_i hmem
      exact ih seen
    · rename_i hmem
      rcases ih (x :: seen) with ⟨hnd, hns⟩
      refine ⟨List.nodup_cons.mpr ⟨?_, hnd⟩, ?_⟩
      · intro hx
        exact (hns x hx) (List.mem_cons_self x seen)
      · intro y hy
        rcases List.mem_cons.mp hy with rfl | hy2
        · intro hx
          exact hmem (List.elem_iff.mpr hx)
        · exact fun hys => (hns y hy2) (List.mem_cons_of_mem x hys)

theorem dedupStr_nodup (l : List Str) : (dedupStr l).Nodup :=
  (dedupStrGo_nodup [] l).1

theorem dedupStrGo_of_nodup {l : List Str} (seen : List Str)
    (h : l.Nodup) (hdisj : ∀ x ∈ l, x ∉ seen) : dedupStrGo seen l = l := by
  induction l generalizing seen with
  | nil => rfl
  | cons x xs ih =>
    rcases List.nodup_cons.mp h with ⟨hx, hxs⟩
    simp only [dedupStrGo]
    rw [if_neg (by
      intro hc
      exact (hdisj x (List.mem_cons_self x xs)) (List.elem_iff.mp hc))]
    rw [ih (x :: seen) hxs (by
      intro y hy
      intro hc
      rcases List.mem_cons.mp hc with rfl | hc2
      · exact hx hy
      · exact (hdisj y (List.mem_cons_of_mem x hy)) hc2)]

theorem dedupStr_of_nodup {l : List Str} (h : l.Nodup) : dedupStr l = l :=
  dedupStrGo_of_nodup [] h (by simp)

/-! ### Lemmas about `pySplitWs` -/

theorem mem_of_mem_pySplitWsGo {w s t : Str} (ht : t ∈ pySplitWsGo w s)
    {c : Char} (hc : c ∈ t) : c ∈ w ∨ c ∈ s := by
  induction s generalizing w with
  | nil =>
    simp only [pySplitWsGo] at ht
    split at ht
    · cases ht
    · rcases List.mem_singleton.mp ht with rfl
      exact Or.inl (List.mem_reverse.mp hc)
  | cons d ds ih =>
    simp only [pySplitWsGo] at ht
    split at ht
    · split at ht
      · rcases ih ht with h | h
        · cases h
        · exact Or.inr (List.mem_cons_of_mem d h)
      · rcases List.mem_cons.mp ht with rfl | h2
        · exact Or.inl (List.mem_reverse.mp hc)
        · rcases ih h2 with h | h
          · cases h
          · exact Or.inr (List.mem_cons_of_mem d h)
    · rcases ih ht with h | h
      · rcases List.mem_cons.mp h with rfl | h2
        · exact Or.inr (List.mem_cons_self _ _)
        · exact Or.inl h2
      · exact Or.inr (List.mem_cons_of_mem _ h)

theorem mem_of_mem_pySplitWs {s t : Str} (ht : t ∈ pySplitWs s) {c : Char}
    (hc : c ∈ t) : c ∈ s := by
  rcases mem_of_mem_pySplitWsGo ht hc with h | h
  · cases h
  · exact h

theorem pySplitWsGo_tokens {w s t : Str}
    (hw : ∀ c ∈ w, pyIsSpace c = false) (ht : t ∈ pySplitWsGo w s) :
    t ≠ [] ∧ ∀ c ∈ t, pyIsSpace c = false := by
  induction s generalizing w with
  | nil =>
    simp only [pySplitWsGo] at ht
    split at ht
    · cases ht
    · rename_i hwe
      rcases List.mem_singleton.mp ht with rfl
      refine ⟨by simpa using hwe, ?_⟩
      intro c hc
      exact hw c (List.mem_reverse.mp hc)
  | cons d ds ih =>
    simp only [pySplitWsGo] at ht
    split at ht
    · rename_i hd
      split at ht
      · exact ih (by simp) ht
      · rename_i hwe
        rcases List.mem_cons.mp ht with rfl | h2
        · refine ⟨by simpa using hwe, ?_⟩
          intro c hc
          exact hw c (List.mem_reverse.mp hc)
        · exact ih (by simp) h2
    · rename_i hd
      refine ih ?_ ht
      intro c hc
      rcases List.mem_cons.mp hc with rfl | h2
      · simpa using hd
      · exact hw c h2

theorem pySplitWs_tokens {s t : Str} (ht : t ∈ pySplitWs s) :
    t ≠ [] ∧ ∀ c ∈ t, pyIsSpace c = false :=
  pySplitWsGo_tokens (by simp) ht

theorem pySplitWsGo_word {t : Str} (ht : ∀ c ∈ t, pyIsSpace c = false)
    (w r : Str) : pySplitWsGo w (t ++ r) = pySplitWsGo (t.reverse ++ w) r := by
  induction t generalizing w with
  | nil => simp
  | cons c cs ih =>
    have hc : pyIsSpace c = false := ht c (List.mem_cons_self c cs)
    show pySplitWsGo w (c :: (cs ++ r)) = _
    simp only [pySplitWsGo, hc, Bool.false_eq_true, if_false]
    rw [ih (fun d hd => ht d (List.mem_cons_of_mem c hd)) (c :: w)]
    simp [List.reverse_cons, List.append_assoc]

/-- `str.split()` recovers the space-joined nonempty whitespace-free tokens. -/
theorem pySplitWs_joinSep {ts : List Str}
    (h : ∀ t ∈ ts, t ≠ [] ∧ ∀ c ∈ t, pyIsSpace c = false) :
    pySplitWs (joinSep ' ' ts) = ts := by
  induction ts with
  | nil => rfl
  | cons t us ih =>
    rcases h t (List.mem_cons_self t us) with ⟨htne, htws⟩
    cases us with
    | nil =>
      have eq := pySplitWsGo_word htws [] []
      rw [List.append_nil] at eq
      show pySplitWsGo [] t = [t]
      rw [eq]
      simp only [pySplitWsGo, List.append_nil, List.isEmpty_eq_true,
        List.reverse_eq_nil_iff]
      rw [if_neg htne]
      simp
    | cons u vs =>
      show pySplitWsGo [] (t ++ ' ' :: joinSep ' ' (u :: vs)) = t :: u :: vs
      rw [pySplitWsGo_word htws [] (' ' :: joinSep ' ' (u :: vs))]
      simp only [pySplitWsGo, List.append_nil, show pyIsSpace ' ' = true from rfl,
        if_pos trivial, List.isEmpty_eq_true, List.reverse_eq_nil_iff]
      rw [if_neg htne, List.reverse_reverse]
      have ihe := ih (fun v hv => h v (List.mem_cons_of_mem t hv))
      unfold pySplitWs at ihe
      rw [ihe]

/-! ### Claim C1 -/

/-- C1: for the CSP value `script-src 'unsafe-inline' 'nonce-abc123'` the
    governing directive carries `'unsafe-inline'` together with a nonce source
    and no broad source, yet `classify_csp_xss` returns `UNSAFE`:
    `normalize_csp` lower-cases its own `'nonce-VALUE'` placeholder to
    `'nonce-value'`, so the case-sensitive trusted-escape check of
    `is_unsafe_inline_active` (which looks for `'nonce-VALUE'`) never fires. -/
theorem C1_classify_csp_xss_nonce_unsafe :
    classify_csp_xss "script-src 'unsafe-inline' 'nonce-abc123'".toList =
      CspXSS.UNSAFE ∧
    normalize_csp "script-src 'unsafe-inline' 'nonce-abc123'".toList =
      "script-src 'nonce-value' 'unsafe-inline'".toList ∧
    classify_csp_xss "script-src 'unsafe-inline' 'strict-dynamic'".toList =
      CspXSS.SAFE := by
  refine ⟨by decide, by decide, by decide⟩

/-! ### Claim C3 -/

/-- The three tolerated capture days used in the concrete instances below. -/
def tolDays : List Str :=
  ["20230715", "20230716", "20230717"].map String.toList

/-- C3: each step of the snapshot stability machine computes exactly the spec's
    transition table applied to the previous status and the day's event, and in
    particular `Miss404` from `ADDED`/`MODIFIED`/`UNMODIFIED` gives `REMOVED`,
    `NoData` from `ADDED`/`MODIFIED` gives `UNMODIFIED`, and an
    out-of-tolerance `Hit` from `MISSING` stays `MISSING`. -/
theorem C3_snapshot_step_matches_spec_table :
    (∀ (tol : List Str) (prev : Status) (lastHit : Option Str)
      (obs : Option SnapRow),
      (snapshotStep tol (prev, lastHit) obs).1 =
        specTransition prev (eventOf tol lastHit obs)) ∧
    (snapshotStep tolDays (Status.ADDED, some "u".toList)
      (some ⟨"u".toList, "20230716".toList, 404⟩)).1 = Status.REMOVED ∧
    (snapshotStep tolDays (Status.MODIFIED, some "u".toList)
      (some ⟨"u".toList, "20230716".toList, 404⟩)).1 = Status.REMOVED ∧
    (snapshotStep tolDays (Status.UNMODIFIED, some "u".toList)
      (some ⟨"u".toList, "20230716".toList, 404⟩)).1 = Status.REMOVED ∧
    (snapshotStep tolDays (Status.ADDED, some "u".toList) none).1 =
      Status.UNMODIFIED ∧
    (snapshotStep tolDays (Status.MODIFIED, some "u".toList) none).1 =
      Status.UNMODIFIED ∧
    (snapshotStep tolDays (Status.MISSING, none)
      (some ⟨"u".toList, "20230720".toList, 200⟩)).1 = Status.MISSING := by
  refine ⟨?_, by decide, by decide, by decide, by decide, by decide, by decide⟩
  intro tol prev lastHit obs
  cases obs with
  | none => cases prev <;> rfl
  | some row =>
    show (snapshotStep tol (prev, lastHit) (some row)).1 = _
    simp only [snapshotStep, eventOf]
    by_cases h1 : tol.contains row.day
    · simp only [h1, not_true_eq_false, if_false]
      by_cases h2 : row.status_code = 404
      · simp only [h2, if_pos trivial, if_pos rfl]
        cases prev <;> rfl
      · simp only [if_neg h2]
        by_cases h3 : lastHit = some row.end_url
        · simp only [h3, if_pos rfl, ne_eq, not_true_eq_false, if_false]
          cases prev <;> simp [specTransition]
        · simp only [if_neg h3, ne_eq, not_false_eq_true, if_true]
          cases prev <;> simp [specTransition, h3]
    · simp only [h1, not_false_eq_true, if_true]
      cases prev <;> rfl

/-! ### Claim C2 -/

/-- The `;`-separated tokens `classify_hsts` iterates over. -/
def hstsTokens (value : Str) : List Str := splitSep ';' (normalize_hsts value)

/-- The componentwise minimum of the three HSTS enums (`HSTSAge.DISABLED` has
    value `-1`, below `ABSENT`'s `0`): the "all-weakest triple" read as the
    minimum of each component's total order. -/
def hstsAllWeakest : HSTSAge × HSTSSub × HSTSPreload :=
  (HSTSAge.DISABLED, HSTSSub.ABSENT, HSTSPreload.ABSENT)

theorem hstsLoop_violation :
    ∀ (tokens seen : List Str) (ma : Option Nat) (sub pre : Bool),
    ((¬ (tokens.map hstsName).Nodup) ∨
      (∃ u ∈ tokens, hstsName u ∈ seen) ∨
      (∃ u ∈ tokens, hstsName u = "max-age".toList ∧ parseMaxAge u = none)) →
    hstsLoop tokens seen ma sub pre = hstsAbsentTriple := by
  intro tokens
  induction tokens with
  | nil =>
    intro seen ma sub pre h
    rcases h with h | ⟨u, hu, _⟩ | ⟨u, hu, _⟩
    · exact absurd (by simp) h
    · cases hu
    · cases hu
  | cons t rest ih =>
    intro seen ma sub pre h
    by_cases hseen : seen.contains (hstsName t)
    · simp only [hstsLoop, hseen, if_pos]
    · by_cases hbad : hstsName t = "max-age".toList ∧ parseMaxAge t = none
      · obtain ⟨hb1, hb2⟩ := hbad
        simp only [hstsLoop, hseen, Bool.false_eq_true, if_false, hb1, if_pos,
          hb2]
        split <;> rfl
      · have hrest : (¬ (rest.map hstsName).Nodup) ∨
            (∃ u ∈ rest, hstsName u ∈ hstsName t :: seen) ∨
            (∃ u ∈ rest, hstsName u = "max-age".toList ∧
              parseMaxAge u = none) := by
          rcases h with h | ⟨u, hu, hus⟩ | ⟨u, hu, hn, hp⟩
          · rw [List.map_cons, List.nodup_cons] at h
            by_cases hnd : (rest.map hstsName).Nodup
            · have hmem : hstsName t ∈ rest.map hstsName := by tauto
              rcases List.mem_map.mp hmem with ⟨u, hu, hueq⟩
              exact Or.inr (Or.inl ⟨u, hu, by
                rw [hueq]; exact List.mem_cons_self _ _⟩)
            · exact Or.inl hnd
          · rcases List.mem_cons.mp hu with rfl | hu2
            · exact absurd (List.elem_iff.mpr hus) hseen
            · exact Or.inr (Or.inl ⟨u, hu2, List.mem_cons_of_mem _ hus⟩)
          · rcases List.mem_cons.mp hu with rfl | hu2
            · exact absurd ⟨hn, hp⟩ hbad
            · exact Or.inr (Or.inr ⟨u, hu2, hn, hp⟩)
        simp only [hstsLoop, hseen, Bool.false_eq_true, if_false]
        by_cases h1 : hstsName t = "max-age".toList
        · rw [if_pos h1]
          cases hp : parseMaxAge t with
          | none => exact absurd ⟨h1, hp⟩ hbad
          | some v => exact ih _ _ _ _ hrest
        · rw [if_neg h1]
          by_cases h2 : hstsName t = "includesubdomains".toList
          · rw [if_pos h2]
            exact ih _ _ _ _ hrest
          · rw [if_neg h2]
            by_cases h3 : hstsName t = "preload".toList
            · rw [if_pos h3]
              exact ih _ _ _ _ hrest
            · rw [if_neg h3]
              exact ih _ _ _ _ hrest

/-- C2 (amended): when a directive name repeats among the parsed tokens, or a
    `max-age` token's value fails the `max-age="?<digits>"?` pattern,
    `classify_hsts` returns `(ABSENT, ABSENT, ABSENT)` — the early-return
    triple of the code, whose `Age` component is `ABSENT` (value `0`), not the
    minimum-ranked `DISABLED` (value `-1`). -/
theorem C2_classify_hsts_violation_returns_absent (value : Str)
    (h : (¬ ((hstsTokens value).map hstsName).Nodup) ∨
      (∃ u ∈ hstsTokens value, hstsName u = "max-age".toList ∧
        parseMaxAge u = none)) :
    classify_hsts value = hstsAbsentTriple := by
  refine hstsLoop_violation (hstsTokens value) [] none false false ?_
  rcases h with h | h
  · exact Or.inl h
  · exact Or.inr (Or.inr h)

/-- C2 witness: `max-age=100; max-age=200` repeats the `max-age` name, and the
    theorem applies. -/
theorem C2_witness :
    classify_hsts "max-age=100; max-age=200".toList = hstsAbsentTriple :=
  C2_classify_hsts_violation_returns_absent _ (Or.inl (by decide))

/-- C2 counterexample to the claim as stated: on `max-age=100; max-age=200`
    the result is `(ABSENT, ABSENT, ABSENT)`, which is not the componentwise
    minimum (all-weakest) triple, since `HSTSAge.DISABLED < HSTSAge.ABSENT`. -/
theorem C2_counterexample :
    classify_hsts "max-age=100; max-age=200".toList =
      (HSTSAge.ABSENT, HSTSSub.ABSENT, HSTSPreload.ABSENT) ∧
    classify_hsts "max-age=100; max-age=200".toList ≠ hstsAllWeakest ∧
    HSTSAge.val HSTSAge.DISABLED < HSTSAge.val HSTSAge.ABSENT := by
  refine ⟨by decide, by decide, by decide⟩

/-! ### Claim C7 -/

/-- The (first) token whose directive name is `max-age`. -/
def hstsFindMa (tokens : List Str) : Option Str :=
  (tokens.filter (fun u => hstsName u = "max-age".toList)).head?

/-- Whether a token with directive name `includesubdomains` occurs. -/
def hstsHasSub (tokens : List Str) : Bool :=
  tokens.any (fun u => hstsName u = "includesubdomains".toList)

/-- Whether a token with directive name `preload` occurs. -/
def hstsHasPre (tokens : List Str) : Bool :=
  tokens.any (fun u => hstsName u = "preload".toList)

theorem hstsLoop_clean :
    ∀ (tokens seen : List Str) (ma : Option Nat) (sub pre : Bool),
    ((tokens.map hstsName).Nodup) →
    (∀ u ∈ tokens, hstsName u ∉ seen) →
    (∀ u ∈ tokens, hstsName u = "max-age".toList → (parseMaxAge u).isSome) →
    hstsLoop tokens seen ma sub pre =
      hstsFinish
        (match hstsFindMa tokens with
         | some u => parseMaxAge u
         | none => ma)
        (sub || hstsHasSub tokens)
        (pre || hstsHasPre tokens) := by
  intro tokens
  induction tokens with
  | nil =>
    intro seen ma sub pre _ _ _
    simp [hstsLoop, hstsFindMa, hstsHasSub, hstsHasPre]
  | cons t rest ih =>
    intro seen ma sub pre hnd hdisj hparse
    rw [List.map_cons, List.nodup_cons] at hnd
    obtain ⟨hnotin, hndr⟩ := hnd
    have hseen : ¬ seen.contains (hstsName t) = true := fun hc =>
      (hdisj t (List.mem_cons_self t rest)) (List.elem_iff.mp hc)
    have hdisj2 : ∀ u ∈ rest, hstsName u ∉ hstsName t :: seen := by
      intro u hu
      intro hc
      rcases List.mem_cons.mp hc with heq | hin
      · exact hnotin (heq ▸ List.mem_map_of_mem hstsName hu)
      · exact (hdisj u (List.mem_cons_of_mem t hu)) hin
    have hparse2 : ∀ u ∈ rest, hstsName u = "max-age".toList →
        (parseMaxAge u).isSome :=
      fun u hu => hparse u (List.mem_cons_of_mem t hu)
    simp only [hstsLoop, hseen, Bool.false_eq_true, if_false]
    by_cases h1 : hstsName t = "max-age".toList
    · cases hp : parseMaxAge t with
      | none =>
        have := hparse t (List.mem_cons_self t rest) h1
        rw [hp] at this
        cases this
      | some v =>
        rw [if_pos h1]
        show hstsLoop rest (hstsName t :: seen) (some v) sub pre = _
        rw [ih (hstsName t :: seen) (some v) sub pre hndr hdisj2 hparse2]
        have hfil : rest.filter (fun u => hstsName u = "max-age".toList) = [] := by
          rw [List.filter_eq_nil_iff]
          intro u hu hmat
          exact hnotin (by
            rw [← h1, ← of_decide_eq_true hmat] at *
            exact List.mem_map_of_mem hstsName hu)
        have hsub : hstsHasSub (t :: rest) = hstsHasSub rest := by
          simp only [hstsHasSub, List.any_cons, h1]
          simp
        have hpre : hstsHasPre (t :: rest) = hstsHasPre rest := by
          simp only [hstsHasPre, List.any_cons, h1]
          simp
        rw [hsub, hpre]
        simp only [hstsFindMa, List.filter_cons, decide_eq_true h1, if_pos,
          hfil, List.head?_cons, hp]
        rfl
    · rw [if_neg h1]
      have hfm : hstsFindMa (t :: rest) = hstsFindMa rest := by
        simp only [hstsFindMa, List.filter_cons]
        rw [if_neg (by simpa using h1)]
      by_cases h2 : hstsName t = "includesubdomains".toList
      · rw [if_pos h2]
        rw [ih (hstsName t :: seen) ma true pre hndr hdisj2 hparse2]
        have hsub : hstsHasSub (t :: rest) = true := by
          simp [hstsHasSub, List.any_cons, h2]
        have hpre : hstsHasPre (t :: rest) = hstsHasPre rest := by
          simp only [hstsHasPre, List.any_cons, h2]
          simp [show ¬ ("includesubdomains".toList = "preload".toList) from by decide]
        rw [hfm, hsub, hpre]
        simp
      · rw [if_neg h2]
        by_cases h3 : hstsName t = "preload".toList
        · rw [if_pos h3]
          rw [ih (hstsName t :: seen) ma sub true hndr hdisj2 hparse2]
          have hsub : hstsHasSub (t :: rest) = hstsHasSub rest := by
            simp only [hstsHasSub, List.any_cons, h3]
            simp [show ¬ ("preload".toList = "includesubdomains".toList) from by decide]
          have hpre : hstsHasPre (t :: rest) = true := by
            simp [hstsHasPre, List.any_cons, h3]
          rw [hfm, hsub, hpre]
          simp
        · rw [if_neg h3]
          rw [ih (hstsName t :: seen) ma sub pre hndr hdisj2 hparse2]
          have hsub : hstsHasSub (t :: rest) = hstsHasSub rest := by
            simp only [hstsHasSub, List.any_cons, h2]
            simp_all
          have hpre : hstsHasPre (t :: rest) = hstsHasPre rest := by
            simp only [hstsHasPre, List.any_cons, h3]
            simp_all
          rw [hfm, hsub, hpre]

/-- The parsed value of the (first) `max-age` directive, if any. -/
def hstsMaxAgeVal (value : Str) : Option Nat :=
  (hstsFindMa (hstsTokens value)).bind parseMaxAge

theorem hstsFinish_spec (A : Option Nat) (hs hp : Bool) :
    ((hstsFinish A hs hp).2.1 = HSTSSub.ACTIVE ↔
      (hs = true ∧ (hstsFinish A hs hp).1 ≠ HSTSAge.ABSENT ∧
        (hstsFinish A hs hp).1 ≠ HSTSAge.DISABLED)) ∧
    ((hstsFinish A hs hp).2.2 = HSTSPreload.ACTIVE ↔
      (hp = true ∧ (hstsFinish A hs hp).2.1 = HSTSSub.ACTIVE ∧
        (hstsFinish A hs hp).1 = HSTSAge.BIG)) := by
  rcases A with _ | v
  · cases hs <;> cases hp <;>
      simp [hstsFinish, classify_hsts_age, HSTSSub.ofBool, HSTSPreload.ofBool]
  · by_cases hv1 : v ≤ 0 <;> by_cases hv2 : v < 60 * 60 * 24 * 365 <;>
      cases hs <;> cases hp <;>
      simp [hstsFinish, classify_hsts_age, hv1, hv2, HSTSSub.ofBool,
        HSTSPreload.ofBool]

/-- C7: for well-formed HSTS values (no duplicate directive names, every
    `max-age` token matching the `max-age="?<digits>"?` pattern) the three
    components of `classify_hsts` are: `Age` by the 0 / 31536000 thresholds
    (`ABSENT` without a `max-age` directive), `Sub` active iff
    `includeSubDomains` is present and `Age ∉ {ABSENT, DISABLED}`, and
    `Preload` active iff `preload` is present, `Sub` is active and `Age = BIG`;
    with the two concrete instances of the claim. -/
theorem C7_classify_hsts_wellformed :
    (∀ value : Str,
      ((hstsTokens value).map hstsName).Nodup →
      (∀ u ∈ hstsTokens value, hstsName u = "max-age".toList →
        (parseMaxAge u).isSome) →
      ((hstsMaxAgeVal value = none →
          (classify_hsts value).1 = HSTSAge.ABSENT) ∧
       (∀ v, hstsMaxAgeVal value = some v →
          (classify_hsts value).1 =
            (if v ≤ 0 then HSTSAge.DISABLED
             else if v < 31536000 then HSTSAge.LOW else HSTSAge.BIG)) ∧
       ((classify_hsts value).2.1 = HSTSSub.ACTIVE ↔
          (hstsHasSub (hstsTokens value) = true ∧
           (classify_hsts value).1 ≠ HSTSAge.ABSENT ∧
           (classify_hsts value).1 ≠ HSTSAge.DISABLED)) ∧
       ((classify_hsts value).2.2 = HSTSPreload.ACTIVE ↔
          (hstsHasPre (hstsTokens value) = true ∧
           (classify_hsts value).2.1 = HSTSSub.ACTIVE ∧
           (classify_hsts value).1 = HSTSAge.BIG)))) ∧
    classify_hsts "max-age=31536000; includeSubDomains; preload".toList =
      (HSTSAge.BIG, HSTSSub.ACTIVE, HSTSPreload.ACTIVE) ∧
    classify_hsts "max-age=0".toList =
      (HSTSAge.DISABLED, HSTSSub.ABSENT, HSTSPreload.ABSENT) := by
  refine ⟨?_, by decide, by decide⟩
  intro value h1 h2
  have hdisj : ∀ u ∈ hstsTokens value, hstsName u ∉ ([] : List Str) := by
    simp
  have key := hstsLoop_clean (hstsTokens value) [] none false false h1 hdisj h2
  have hcl : classify_hsts value =
      hstsFinish (hstsMaxAgeVal value) (hstsHasSub (hstsTokens value))
        (hstsHasPre (hstsTokens value)) := by
    show hstsLoop (hstsTokens value) [] none false false = _
    rw [key]
    simp only [Bool.false_or]
    congr 1
    cases hfm : hstsFindMa (hstsTokens value) <;>
      simp [hstsMaxAgeVal, hfm]
  refine ⟨?_, ?_, ?_, ?_⟩
  · intro hA
    rw [hcl, hA]
    rfl
  · intro v hv
    rw [hcl, hv]
    show classify_hsts_age (some v) = _
    simp only [classify_hsts_age]
  · rw [hcl]
    exact (hstsFinish_spec _ _ _).1
  · rw [hcl]
    exact (hstsFinish_spec _ _ _).2

/-- C7 witness: the well-formedness hypotheses hold at
    `max-age=31536000; includeSubDomains; preload`, and the characterization
    applies there. -/
theorem C7_witness :
    (hstsMaxAgeVal "max-age=31536000; includeSubDomains; preload".toList =
        none →
      (classify_hsts "max-age=31536000; includeSubDomains; preload".toList).1 =
        HSTSAge.ABSENT) ∧
    (∀ v, hstsMaxAgeVal
        "max-age=31536000; includeSubDomains; preload".toList = some v →
      (classify_hsts "max-age=31536000; includeSubDomains; preload".toList).1 =
        (if v ≤ 0 then HSTSAge.DISABLED
         else if v < 31536000 then HSTSAge.LOW else HSTSAge.BIG)) ∧
    ((classify_hsts
        "max-age=31536000; includeSubDomains; preload".toList).2.1 =
        HSTSSub.ACTIVE ↔
      (hstsHasSub (hstsTokens
          "max-age=31536000; includeSubDomains; preload".toList) = true ∧
       (classify_hsts
          "max-age=31536000; includeSubDomains; preload".toList).1 ≠
          HSTSAge.ABSENT ∧
       (classify_hsts
          "max-age=31536000; includeSubDomains; preload".toList).1 ≠
          HSTSAge.DISABLED)) ∧
    ((classify_hsts
        "max-age=31536000; includeSubDomains; preload".toList).2.2 =
        HSTSPreload.ACTIVE ↔
      (hstsHasPre (hstsTokens
          "max-age=31536000; includeSubDomains; preload".toList) = true ∧
       (classify_hsts
          "max-age=31536000; includeSubDomains; preload".toList).2.1 =
          HSTSSub.ACTIVE ∧
       (classify_hsts
          "max-age=31536000; includeSubDomains; preload".toList).1 =
          HSTSAge.BIG)) :=
  C7_classify_hsts_wellformed.1
    "max-age=31536000; includeSubDomains; preload".toList
    (by decide) (by decide)

/-! ### Claim C9 -/

theorem rpFold_spec :
    ∀ (tokens : List Str) (acc : Str) (r : RP), rpMatch acc = some r →
    rpMatch (tokens.foldl
      (fun policy token =>
        if REFERRER_POLICY_VALUES.contains token then token else policy) acc) =
    some (tokens.foldl
      (fun a token =>
        if token = "unsafe-url".toList then RP.UNSAFE_URL
        else if token = "same-origin".toList then RP.SAME_ORIGIN
        else if token = "no-referrer".toList then RP.NO_REFERRER
        else if token = "no-referrer-when-downgrade".toList then
          RP.NO_REFERRER_WHEN_DOWNGRADE
        else if token = "origin".toList then RP.ORIGIN
        else if token = "origin-when-cross-origin".toList then
          RP.ORIGIN_WHEN_CROSS_ORIGIN
        else if token = "strict-origin".toList then RP.STRICT_ORIGIN
        else if token = "strict-origin-when-cross-origin".toList then
          RP.STRICT_ORIGIN_WHEN_CROSS_ORIGIN
        else a) r) := by
  intro tokens
  induction tokens with
  | nil => intro acc r h; exact h
  | cons t rest ih =>
    intro acc r h
    simp only [List.foldl_cons]
    by_cases hc : REFERRER_POLICY_VALUES.contains t
    · rw [if_pos hc]
      have hmem : t ∈ REFERRER_POLICY_VALUES := List.elem_iff.mp hc
      simp only [REFERRER_POLICY_VALUES, List.map_cons, List.map_nil,
        List.mem_cons, List.not_mem_nil, or_false] at hmem
      rcases hmem with rfl | rfl | rfl | rfl | rfl | rfl | rfl | rfl <;>
        (refine ih _ _ ?_; rfl)
    · rw [if_neg hc]
      have ht : ∀ v ∈ REFERRER_POLICY_VALUES, ¬ t = v := by
        intro v hv heq
        exact hc (List.elem_iff.mpr (heq ▸ hv))
      rw [if_neg (ht _ (by decide)), if_neg (ht _ (by decide)),
        if_neg (ht _ (by decide)), if_neg (ht _ (by decide)),
        if_neg (ht _ (by decide)), if_neg (ht _ (by decide)),
        if_neg (ht _ (by decide)), if_neg (ht _ (by decide))]
      exact ih acc r h

/-- C9: `classify_referrer_policy` returns (as `some`) exactly the spec's
    last-recognized-token-wins value, defaulting to
    `STRICT_ORIGIN_WHEN_CROSS_ORIGIN`; in particular
    `classify_referrer_policy("unsafe-url, strict-origin") = STRICT_ORIGIN`. -/
theorem C9_classify_referrer_policy_spec :
    (∀ value : Str,
      classify_referrer_policy value = some (specReferrerPolicy value)) ∧
    classify_referrer_policy "unsafe-url, strict-origin".toList =
      some RP.STRICT_ORIGIN := by
  refine ⟨?_, by decide⟩
  intro value
  have hsplit : splitSep ',' (normalize_referrer_policy value) =
      (splitSep ',' (pyLower value)).map pyStrip := by
    apply splitSep_joinSep
    · intro h
      exact splitSep_ne_nil ',' (pyLower value)
        (List.map_eq_nil_iff.mp h)
    · intro p hp
      rcases List.mem_map.mp hp with ⟨q, hq, rfl⟩
      intro hc
      exact sep_not_mem_splitSep hq (mem_pyStrip hc)
  unfold classify_referrer_policy specReferrerPolicy
  rw [hsplit]
  exact rpFold_spec _ _ _ (by decide)

/-! ### Claim C5 -/

theorem classify_framing_control_ok (directive : List Str) (o : Origin) :
    ∃ r, classify_framing_control directive (some o) = Except.ok r := by
  unfold classify_framing_control
  split
  · exact ⟨_, rfl⟩
  · show ∃ r,
      (if (directive.all fun s => (fa_self_expressions o).contains s) = true
        then (Except.ok CspFA.SELF : Except String CspFA)
        else if (directive.any fun s => fa_unsafe_expressions.contains s) = true
          then Except.ok CspFA.UNSAFE
          else Except.ok CspFA.CONSTRAINED) = Except.ok r
    split
    · exact ⟨_, rfl⟩
    · split
      · exact ⟨_, rfl⟩
      · exact ⟨_, rfl⟩

theorem classify_policy_fa_ok (policy : CSPDict) (o : Origin) :
    ∃ r, classify_policy_fa policy (some o) = Except.ok r := by
  unfold classify_policy_fa
  split
  · exact classify_framing_control_ok _ o
  · exact ⟨_, rfl⟩

theorem classify_csp_fa_fold_ok (l : List CSPDict) (o : Origin) :
    ∀ init : CspFA,
    ∃ r, (l.foldlM (fun res policy => do
        let c ← classify_policy_fa policy (some o)
        pure (max_enum CspFA.val res c)) init : Except String CspFA) =
      Except.ok r := by
  induction l with
  | nil => exact fun init => ⟨init, rfl⟩
  | cons p ps ih =>
    intro init
    rcases classify_policy_fa_ok p o with ⟨c, hc⟩
    rcases ih (max_enum CspFA.val init c) with ⟨r, hr⟩
    refine ⟨r, ?_⟩
    show (do
        let c ← classify_policy_fa p (some o)
        pure (max_enum CspFA.val init c) : Except String CspFA) >>=
      (fun b => ps.foldlM _ b) = Except.ok r
    rw [hc]
    exact hr

theorem classify_csp_fa_ok (value : Str) (o : Origin) :
    ∃ r, classify_csp_fa value (some o) = Except.ok r :=
  classify_csp_fa_fold_ok (parse_csp (normalize_csp value)) o CspFA.UNSAFE

theorem classify_pp_fold_ok (chunks : List Str) (o : Origin) :
    ∀ acc : List Str,
    ∃ d, (chunks.foldlM (fun acc directive => do
        match ppMatchClassify (pyStrip directive) with
        | none => pure acc
        | some (name, content0) =>
          let content := dedupStr (pySplitWs (pyStrip content0))
          if content.contains "*".toList then pure acc
          else
            match some o with
            | none => Except.error "AttributeError"
            | some o =>
              let selfExprs := pp_self_expressions o
              let content2 :=
                if content.any (fun e => selfExprs.contains e) then
                  let removed := content.filter (fun e => !selfExprs.contains e)
                  if removed.contains "self".toList then removed
                  else removed ++ ["self".toList]
                else content
              pure (acc ++ [name ++ "=(".toList ++
                joinSep ' ' (insSortStr content2) ++ ")".toList])) acc :
      Except String (List Str)) = Except.ok d := by
  induction chunks with
  | nil => exact fun acc => ⟨acc, rfl⟩
  | cons ch chs ih =>
    intro acc
    rcases hstep : ppMatchClassify (pyStrip ch) with _ | ⟨name, content0⟩
    · rcases ih acc with ⟨d, hd⟩
      refine ⟨d, ?_⟩
      show (match ppMatchClassify (pyStrip ch) with
        | none => pure acc
        | some (name, content0) => _) >>= (fun b => chs.foldlM _ b) =
          Except.ok d
      rw [hstep]
      exact hd
    · by_cases hstar :
        (dedupStr (pySplitWs (pyStrip content0))).contains "*".toList
      · rcases ih acc with ⟨d, hd⟩
        refine ⟨d, ?_⟩
        show (match ppMatchClassify (pyStrip ch) with
          | none => pure acc
          | some (name, content0) => _) >>= (fun b => chs.foldlM _ b) =
            Except.ok d
        rw [hstep]
        show ((if (dedupStr (pySplitWs (pyStrip content0))).contains
            "*".toList = true then pure acc else _) : Except String (List Str))
            >>= _ = _
        rw [if_pos hstar]
        exact hd
      · rcases ih (acc ++ [name ++ "=(".toList ++
          joinSep ' ' (insSortStr (
            if (dedupStr (pySplitWs (pyStrip content0))).any
                (fun e => (pp_self_expressions o).contains e) then
              if ((dedupStr (pySplitWs (pyStrip content0))).filter
                  (fun e => !(pp_self_expressions o).contains e)).contains
                  "self".toList then
                (dedupStr (pySplitWs (pyStrip content0))).filter
                  (fun e => !(pp_self_expressions o).contains e)
              else ((dedupStr (pySplitWs (pyStrip content0))).filter
                  (fun e => !(pp_self_expressions o).contains e)) ++
                ["self".toList]
            else dedupStr (pySplitWs (pyStrip content0)))) ++
          ")".toList]) with ⟨d, hd⟩
        refine ⟨d, ?_⟩
        show (match ppMatchClassify (pyStrip ch) with
          | none => pure acc
          | some (name, content0) => _) >>= (fun b => chs.foldlM _ b) =
            Except.ok d
        rw [hstep]
        show ((if (dedupStr (pySplitWs (pyStrip content0))).contains
            "*".toList = true then pure acc else _) : Except String (List Str))
            >>= _ = _
        rw [if_neg hstar]
        exact hd

theorem classify_permissions_policy_ok (value : Str) (o : Origin) :
    ∃ s, classify_permissions_policy value (some o) = Except.ok s := by
  rcases classify_pp_fold_ok (splitSep ',' (pyLower value)) o [] with ⟨d, hd⟩
  refine ⟨joinSep ',' (insSortStr d), ?_⟩
  unfold classify_permissions_policy
  rw [hd]
  rfl

theorem classify_csp_ok (value : Str) (o : Origin) :
    ∃ t, classify_csp value (some o) = Except.ok t := by
  rcases classify_csp_fa_ok value o with ⟨r, hr⟩
  refine ⟨(classify_csp_xss value, r, classify_csp_tls value), ?_⟩
  unfold classify_csp
  rw [hr]
  rfl

/-- C5 (amended): with an actual `Origin` supplied, every classifier produces
    a value of its result type: the origin-using classifiers never reach the
    error case, and `classify_referrer_policy`'s final `match` (which has no
    default case) always receives a recognized value or the empty string.  The
    remaining classifiers (`classify_hsts`, `classify_xfo`, `classify_csp_xss`,
    `classify_csp_tls`, `classify_coop`, `classify_corp`, `classify_coep`) are
    total functions of the embedding by construction. -/
theorem C5_classifiers_total_with_origin :
    ∀ (value : Str) (o : Origin),
      (∃ r, classify_csp_fa value (some o) = Except.ok r) ∧
      (∃ s, classify_permissions_policy value (some o) = Except.ok s) ∧
      (∃ t, classify_csp value (some o) = Except.ok t) ∧
      (classify_referrer_policy value).isSome = true := by
  intro value o
  refine ⟨classify_csp_fa_ok value o, classify_permissions_policy_ok value o,
    classify_csp_ok value o, ?_⟩
  unfold classify_referrer_policy
  rw [rpFold_spec (splitSep ',' (normalize_referrer_policy value))
    [] RP.STRICT_ORIGIN_WHEN_CROSS_ORIGIN (by decide)]
  rfl

/-- C5 counterexample to the claim over every supplied optional Origin: with
    `origin=None`, `classify_csp_fa` and `classify_permissions_policy`
    dereference the origin and raise (`AttributeError`) on values whose
    classification reaches the origin-dependent checks. -/
theorem C5_counterexample :
    classify_csp_fa "frame-ancestors x".toList none =
      Except.error "AttributeError" ∧
    classify_permissions_policy "camera=(self)".toList none =
      Except.error "AttributeError" := ⟨rfl, rfl⟩

/-! ### Claim C8 -/

theorem classify_policy_fa_spec (policy : CSPDict) (o : Origin) :
    classify_policy_fa policy (some o) = Except.ok (specPolicyFA o policy) := by
  unfold classify_policy_fa specPolicyFA
  cases hget : cspGet "frame-ancestors".toList policy with
  | none => rfl
  | some tokens =>
    show classify_framing_control tokens (some o) = Except.ok
      (if (tokens.isEmpty || tokens.all fun t => t == "'none'".toList) = true
        then CspFA.NONE
        else if (tokens.all fun t => (fa_self_expressions o).contains t) = true
          then CspFA.SELF
          else if (tokens.any fun t => fa_unsafe_expressions.contains t) = true
            then CspFA.UNSAFE
            else CspFA.CONSTRAINED)
    unfold classify_framing_control
    by_cases he : tokens.isEmpty = true
    · simp [he]
    · by_cases hall : (tokens.all fun t => t == "'none'".toList) = true
      · simp [he, hall]
        split_ifs <;> rfl
      · simp [he, hall]
        split_ifs <;> rfl

theorem classify_csp_fa_spec_fold (l : List CSPDict) (o : Origin) :
    ∀ init : CspFA,
    (l.foldlM (fun res policy => do
        let c ← classify_policy_fa policy (some o)
        pure (max_enum CspFA.val res c)) init : Except String CspFA) =
      Except.ok (l.foldl
        (fun res policy => max_enum CspFA.val res (specPolicyFA o policy))
        init) := by
  induction l with
  | nil => exact fun init => rfl
  | cons p ps ih =>
    intro init
    show (do
        let c ← classify_policy_fa p (some o)
        pure (max_enum CspFA.val init c) : Except String CspFA) >>=
      (fun b => ps.foldlM _ b) = _
    rw [classify_policy_fa_spec p o]
    show ps.foldlM _ (max_enum CspFA.val init (specPolicyFA o p)) = _
    rw [ih (max_enum CspFA.val init (specPolicyFA o p))]
    rfl

/-- C8: for every CSP value and Origin, `classify_csp_fa` is exactly the
    `max_enum` fold, over the parsed comma-separated policies, of the spec's
    per-policy framing-control level (`specPolicyFA`); in particular
    `frame-ancestors 'self'` classifies `SELF` for
    `Origin("https", "example.com", None)`, and a CSP without a
    `frame-ancestors` directive classifies `UNSAFE`. -/
theorem C8_classify_csp_fa_spec :
    (∀ (value : Str) (o : Origin),
      classify_csp_fa value (some o) =
        Except.ok ((parse_csp (normalize_csp value)).foldl
          (fun res policy => max_enum CspFA.val res (specPolicyFA o policy))
          CspFA.UNSAFE)) ∧
    classify_csp_fa "frame-ancestors 'self'".toList
      (some ⟨"https".toList, "example.com".toList, none⟩) =
      Except.ok CspFA.SELF ∧
    classify_csp_fa "script-src 'self'".toList
      (some ⟨"https".toList, "example.com".toList, none⟩) =
      Except.ok CspFA.UNSAFE := by
  refine ⟨?_, rfl, rfl⟩
  intro value o
  exact classify_csp_fa_spec_fold (parse_csp (normalize_csp value)) o
    CspFA.UNSAFE

/-! ### Claim C10: idempotence lemmas -/

theorem map_eq_self_str {f : Str → Str} {l : List Str}
    (h : ∀ x ∈ l, f x = x) : l.map f = l := by
  induction l with
  | nil => rfl
  | cons x xs ih =>
    rw [List.map_cons, h x (List.mem_cons_self x xs),
      ih (fun y hy => h y (List.mem_cons_of_mem x hy))]

theorem insSortStr_ne_nil {l : List Str} (h : l ≠ []) : insSortStr l ≠ [] := by
  intro hc
  exact h (List.eq_nil_of_length_eq_zero
    (by rw [← (insSortStr_perm l).length_eq, hc]; rfl))

/-- Re-normalizing the canonical join of stripped, separator-free parts is the
    identity (without sorting). -/
theorem joinSep_strip_roundtrip (sep : Char) (ts : List Str) (hne : ts ≠ [])
    (hfree : ∀ p ∈ ts, sep ∉ p) (hstrip : ∀ p ∈ ts, pyStrip p = p) :
    (splitSep sep (joinSep sep ts)).map pyStrip = ts := by
  rw [splitSep_joinSep hne hfree]
  exact map_eq_self_str hstrip

theorem normalize_coop_idem (value : Str) :
    normalize_coop (normalize_coop value) = normalize_coop value := by
  unfold normalize_coop
  rw [joinSep_strip_roundtrip ';' ((splitSep ';' value).map pyStrip)
    (fun h => splitSep_ne_nil ';' value (List.map_eq_nil_iff.mp h))
    (by
      intro p hp hmem
      rcases List.mem_map.mp hp with ⟨q, hq, rfl⟩
      exact sep_not_mem_splitSep hq (mem_pyStrip hmem))
    (by
      intro p hp
      rcases List.mem_map.mp hp with ⟨q, hq, rfl⟩
      exact pyStrip_idem q)]

theorem normalize_coep_idem (value : Str) :
    normalize_coep (normalize_coep value) = normalize_coep value :=
  normalize_coop_idem value

theorem normalize_corp_idem (value : Str) :
    normalize_corp (normalize_corp value) = normalize_corp value :=
  pyStrip_idem value

theorem allLower_stripJoin (sep : Char) (hsep : lowerChar sep = sep)
    (value : Str) :
    AllLower (joinSep sep ((splitSep sep (pyLower value)).map pyStrip)) := by
  intro c hc
  rcases mem_joinSep hc with rfl | ⟨p, hp, hcp⟩
  · exact hsep
  · rcases List.mem_map.mp hp with ⟨q, hq, rfl⟩
    exact allLower_pyLower value c (mem_of_mem_splitSep hq (mem_pyStrip hcp))

theorem normalize_referrer_policy_idem (value : Str) :
    normalize_referrer_policy (normalize_referrer_policy value) =
      normalize_referrer_policy value := by
  unfold normalize_referrer_policy
  rw [pyLower_eq_self (allLower_stripJoin ',' rfl value)]
  rw [joinSep_strip_roundtrip ','
    ((splitSep ',' (pyLower value)).map pyStrip)
    (fun h => splitSep_ne_nil ',' (pyLower value) (List.map_eq_nil_iff.mp h))
    (by
      intro p hp hmem
      rcases List.mem_map.mp hp with ⟨q, hq, rfl⟩
      exact sep_not_mem_splitSep hq (mem_pyStrip hmem))
    (by
      intro p hp
      rcases List.mem_map.mp hp with ⟨q, hq, rfl⟩
      exact pyStrip_idem q)]

theorem allLower_sortStripJoin (sep : Char) (hsep : lowerChar sep = sep)
    (value : Str) :
    AllLower (joinSep sep
      (insSortStr ((splitSep sep (pyLower value)).map pyStrip))) := by
  intro c hc
  rcases mem_joinSep hc with rfl | ⟨p, hp, hcp⟩
  · exact hsep
  · rcases List.mem_map.mp (mem_insSortStr.mp hp) with ⟨q, hq, rfl⟩
    exact allLower_pyLower value c (mem_of_mem_splitSep hq (mem_pyStrip hcp))

/-- Re-normalizing a sorted canonical join (split, strip, sort, join) is the
    identity. -/
theorem joinSep_sort_strip_roundtrip (sep : Char) (l : List Str)
    (hne : l ≠ []) (hfree : ∀ p ∈ l, sep ∉ p)
    (hstrip : ∀ p ∈ l, pyStrip p = p) :
    joinSep sep (insSortStr
      ((splitSep sep (joinSep sep (insSortStr l))).map pyStrip)) =
    joinSep sep (insSortStr l) := by
  rw [joinSep_strip_roundtrip sep (insSortStr l) (insSortStr_ne_nil hne)
    (fun p hp => hfree p (mem_insSortStr.mp hp))
    (fun p hp => hstrip p (mem_insSortStr.mp hp))]
  rw [insSortStr_of_pairwise (pairwise_insSortStr l)]

theorem normalize_xfo_idem (value : Str) :
    normalize_xfo (normalize_xfo value) = normalize_xfo value := by
  unfold normalize_xfo
  rw [pyLower_eq_self (allLower_sortStripJoin ',' rfl value)]
  exact joinSep_sort_strip_roundtrip ','
    ((splitSep ',' (pyLower value)).map pyStrip)
    (fun h => splitSep_ne_nil ',' (pyLower value) (List.map_eq_nil_iff.mp h))
    (by
      intro p hp hmem
      rcases List.mem_map.mp hp with ⟨q, hq, rfl⟩
      exact sep_not_mem_splitSep hq (mem_pyStrip hmem))
    (by
      intro p hp
      rcases List.mem_map.mp hp with ⟨q, hq, rfl⟩
      exact pyStrip_idem q)

theorem normalize_hsts_idem (value : Str) :
    normalize_hsts (normalize_hsts value) = normalize_hsts value := by
  unfold normalize_hsts
  have hfmem : (splitSep ',' (pyLower value)).headD [] ∈
      splitSep ',' (pyLower value) := by
    cases h : splitSep ',' (pyLower value) with
    | nil => exact absurd h (splitSep_ne_nil _ _)
    | cons p ps => exact List.mem_cons_self _ _
  have hmemN : ∀ c ∈ joinSep ';' (insSortStr
      ((splitSep ';' ((splitSep ',' (pyLower value)).headD [])).map pyStrip)),
      c = ';' ∨ c ∈ (splitSep ',' (pyLower value)).headD [] := by
    intro c hc
    rcases mem_joinSep hc with rfl | ⟨p, hp, hcp⟩
    · exact Or.inl rfl
    · rcases List.mem_map.mp (mem_insSortStr.mp hp) with ⟨q, hq, rfl⟩
      exact Or.inr (mem_of_mem_splitSep hq (mem_pyStrip hcp))
  have hlower : pyLower (joinSep ';' (insSortStr
      ((splitSep ';' ((splitSep ',' (pyLower value)).headD [])).map
        pyStrip))) = joinSep ';' (insSortStr
      ((splitSep ';' ((splitSep ',' (pyLower value)).headD [])).map
        pyStrip)) := by
    apply pyLower_eq_self
    intro c hc
    rcases hmemN c hc with rfl | hmem
    · rfl
    · exact allLower_pyLower value c (mem_of_mem_splitSep hfmem hmem)
  rw [hlower]
  rw [splitSep_of_not_mem (by
    intro hmem
    rcases hmemN ',' hmem with h | h
    · cases h
    · exact sep_not_mem_splitSep hfmem h)]
  show joinSep ';' (insSortStr ((splitSep ';' (joinSep ';' (insSortStr
      ((splitSep ';' ((splitSep ',' (pyLower value)).headD [])).map
        pyStrip)))).map pyStrip)) = _
  exact joinSep_sort_strip_roundtrip ';'
    ((splitSep ';' ((splitSep ',' (pyLower value)).headD [])).map pyStrip)
    (fun h => splitSep_ne_nil ';' _ (List.map_eq_nil_iff.mp h))
    (by
      intro p hp hmem
      rcases List.mem_map.mp hp with ⟨q, hq, rfl⟩
      exact sep_not_mem_splitSep hq (mem_pyStrip hmem))
    (by
      intro p hp
      rcases List.mem_map.mp hp with ⟨q, hq, rfl⟩
      exact pyStrip_idem q)

/-! ### Permissions-Policy idempotence -/

theorem takeWhile_append_stop {p : Char → Bool} {xs ys : Str}
    (hxs : ∀ c ∈ xs, p c) (hy : ∀ h, ys.head? = some h → ¬ p h) :
    (xs ++ ys).takeWhile p = xs ∧ (xs ++ ys).dropWhile p = ys := by
  induction xs with
  | nil =>
    cases ys with
    | nil => exact ⟨rfl, rfl⟩
    | cons y ys2 =>
      have hpy : ¬ p y := hy y rfl
      constructor
      · rw [List.nil_append, List.takeWhile_cons, if_neg (by simpa using hpy)]
      · rw [List.nil_append, List.dropWhile_cons, if_neg (by simpa using hpy)]
  | cons x xs2 ih =>
    have hpx : p x := hxs x (List.mem_cons_self x xs2)
    rcases ih (fun c hc => hxs c (List.mem_cons_of_mem x hc)) with ⟨h1, h2⟩
    constructor
    · rw [List.cons_append, List.takeWhile_cons, if_pos (by simpa using hpx),
        h1]
    · rw [List.cons_append, List.dropWhile_cons, if_pos (by simpa using hpx),
        h2]

theorem head?_takeWhile {p : Char → Bool} {l : Str} {c : Char}
    (h : (l.takeWhile p).head? = some c) : l.head? = some c := by
  cases l with
  | nil => cases h
  | cons a as =>
    rw [List.takeWhile_cons] at h
    split at h
    · simpa using h
    · cases h

theorem beforeLastParen_append (xs : Str) :
    beforeLastParen (xs ++ [')']) = some xs := by
  unfold beforeLastParen
  have hrev : (xs ++ [')']).reverse = ')' :: xs.reverse := by simp
  rw [hrev, List.dropWhile_cons, if_neg (by simp)]
  simp

theorem head?_joinSep {sep : Char} {t : Str} (ts : List Str) (h : t ≠ []) :
    (joinSep sep (t :: ts)).head? = t.head? := by
  cases ts with
  | nil => rfl
  | cons u us =>
    show (t ++ sep :: joinSep sep (u :: us)).head? = t.head?
    exact List.head?_append_of_ne_nil t h

theorem getLast?_joinSep {sep : Char} :
    ∀ {ts : List Str} {t : Str}, ts.getLast? = some t → t ≠ [] →
    (joinSep sep ts).getLast? = t.getLast? := by
  intro ts
  induction ts with
  | nil => intro t h; cases h
  | cons u us ih =>
    intro t hlast hne
    cases us with
    | nil =>
      simp only [List.getLast?_singleton, Option.some.injEq] at hlast
      subst hlast
      rfl
    | cons v vs =>
      have hlast2 : (v :: vs).getLast? = some t := by
        rwa [List.getLast?_cons_cons] at hlast
      have hjoin := ih hlast2 hne
      show (u ++ sep :: joinSep sep (v :: vs)).getLast? = t.getLast?
      have hjne : joinSep sep (v :: vs) ≠ [] := by
        intro hc
        rw [hc] at hjoin
        have : t.getLast? = none := hjoin.symm
        cases t with
        | nil => exact hne rfl
        | cons a as => rw [List.getLast?_eq_getLast] at this <;> simp_all
      rw [List.getLast?_append_of_ne_nil u (by simp)]
      rw [show (sep :: joinSep sep (v :: vs)).getLast? =
        (joinSep sep (v :: vs)).getLast? from ?_, hjoin]
      show ([sep] ++ joinSep sep (v :: vs)).getLast? = _
      exact List.getLast?_append_of_ne_nil [sep] hjne

theorem mem_dedupStrGo {seen l : List Str} {x : Str}
    (h : x ∈ dedupStrGo seen l) : x ∈ l := by
  induction l generalizing seen with
  | nil => cases h
  | cons y ys ih =>
    simp only [dedupStrGo] at h
    split at h
    · exact List.mem_cons_of_mem y (ih h)
    · rcases List.mem_cons.mp h with rfl | h2
      · exact List.mem_cons_self _ _
      · exact List.mem_cons_of_mem y (ih h2)

theorem mem_dedupStr {l : List Str} {x : Str} (h : x ∈ dedupStr l) : x ∈ l :=
  mem_dedupStrGo h

theorem filterMap_eq_self {f : Str → Option Str} {l : List Str}
    (h : ∀ x ∈ l, f x = some x) : l.filterMap f = l := by
  induction l with
  | nil => rfl
  | cons x xs ih =>
    rw [List.filterMap_cons, h x (List.mem_cons_self x xs),
      ih (fun y hy => h y (List.mem_cons_of_mem x hy))]

theorem head?_mem {l : Str} {a : Char} (h : l.head? = some a) : a ∈ l := by
  cases l with
  | nil => cases h
  | cons x xs =>
    simp only [List.head?_cons, Option.some.injEq] at h
    exact h ▸ List.mem_cons_self x xs

theorem getLast?_mem {l : Str} {a : Char} (h : l.getLast? = some a) : a ∈ l := by
  rw [← List.head?_reverse] at h
  exact List.mem_reverse.mp (head?_mem h)

theorem mem_beforeLastParen {xs t : Str} (h : beforeLastParen xs = some t)
    {c : Char} (hc : c ∈ t) : c ∈ xs := by
  unfold beforeLastParen at h
  cases hdrop : xs.reverse.dropWhile (fun c => c ≠ ')') with
  | nil => rw [hdrop] at h; cases h
  | cons a as =>
    rw [hdrop] at h
    injection h with h1
    subst h1
    have h2 : c ∈ a :: as :=
      List.mem_cons_of_mem _ (List.mem_reverse.mp hc)
    rw [← hdrop] at h2
    exact List.mem_reverse.mp ((List.dropWhile_sublist _).subset h2)

theorem ppMatchNorm_inv {d name : Str} {allow : Option Str}
    (h : ppMatchNorm d = some (name, allow)) :
    name = d.takeWhile (fun c => c ≠ '=') ∧ ¬ name.isEmpty = true ∧
    (∀ content, allow = some content → ∀ c ∈ content, c ∈ d) := by
  unfold ppMatchNorm at h
  by_cases he : (d.takeWhile (fun c => c ≠ '=')).isEmpty = true
  · rw [if_pos he] at h; cases h
  · rw [if_neg he] at h
    cases hdrop : d.dropWhile (fun c => c ≠ '=') with
    | nil => rw [hdrop] at h; cases h
    | cons e rest =>
      rw [hdrop] at h
      cases rest with
      | nil => cases h
      | cons c0 r2 =>
        dsimp only at h
        by_cases hc1 : c0 = '*'
        · rw [if_pos hc1] at h
          injection h with h1
          obtain ⟨h2, h3⟩ := Prod.mk.inj h1
          subst h2
          subst h3
          refine ⟨rfl, he, ?_⟩
          intro content hcon
          cases hcon
        · rw [if_neg hc1] at h
          by_cases hc2 : c0 = '('
          · rw [if_pos hc2] at h
            cases hblp : beforeLastParen r2 with
            | none => rw [hblp] at h; cases h
            | some content0 =>
              rw [hblp] at h
              injection h with h1
              obtain ⟨h2, h3⟩ := Prod.mk.inj h1
              subst h2
              subst h3
              refine ⟨rfl, he, ?_⟩
              intro content hcon c hc
              simp only [Option.some.injEq] at hcon
              subst hcon
              have h2 : c ∈ e :: c0 :: r2 :=
                List.mem_cons_of_mem _ (List.mem_cons_of_mem _
                  (mem_beforeLastParen hblp hc))
              rw [← hdrop] at h2
              exact (List.dropWhile_sublist _).subset h2
          · rw [if_neg hc2] at h
            cases h

theorem pyStrip_joinSep_tokens {ts : List Str}
    (hts : ∀ t ∈ ts, t ≠ [] ∧ ∀ c ∈ t, pyIsSpace c = false) :
    pyStrip (joinSep ' ' ts) = joinSep ' ' ts := by
  cases ts with
  | nil => rfl
  | cons t us =>
    rcases hts t (List.mem_cons_self t us) with ⟨htne, htws⟩
    apply pyStrip_eq_self
    · intro c hc
      rw [head?_joinSep us htne] at hc
      exact htws c (head?_mem hc)
    · intro c hc
      have hlast : (t :: us).getLast? = some ((t :: us).getLast (by simp)) :=
        List.getLast?_eq_getLast _ _
      have hmem : (t :: us).getLast (by simp) ∈ t :: us :=
        List.getLast_mem _
      rcases hts _ hmem with ⟨hlne, hlws⟩
      rw [getLast?_joinSep hlast hlne] at hc
      exact hlws c (getLast?_mem hc)

theorem ppNormDirective_star (name : Str) (hne : name ≠ [])
    (heq : ∀ c ∈ name, ¬ c = '=')
    (hhead : ∀ h, name.head? = some h → pyIsSpace h = false) :
    ppNormDirective (name ++ "=*".toList) = some (name ++ "=*".toList) := by
  have hsplit := @takeWhile_append_stop (fun c => decide (c ≠ '=')) name "=*".toList
    (fun c hc => decide_eq_true (heq c hc))
    (by
      intro h hh
      have hh2 : some '=' = some h := hh
      injection hh2 with h3
      subst h3
      decide)
  have hstrip : pyStrip (name ++ "=*".toList) = name ++ "=*".toList := by
    apply pyStrip_eq_self
    · intro c hc
      rw [List.head?_append_of_ne_nil _ hne] at hc
      exact hhead c hc
    · intro c hc
      rw [List.getLast?_append_of_ne_nil name
        (show ("=*".toList : Str) ≠ [] by decide)] at hc
      simp only [show ("=*".toList : Str).getLast? = some '*' from rfl,
        Option.some.injEq] at hc
      subst hc
      rfl
  have hmatch : ppMatchNorm (name ++ "=*".toList) = some (name, none) := by
    unfold ppMatchNorm
    rw [hsplit.1, hsplit.2]
    rw [if_neg (by simp [hne])]
    rfl
  unfold ppNormDirective
  rw [hstrip, hmatch]

theorem ppNormDirective_paren (name : Str) (ts : List Str) (hne : name ≠ [])
    (heq : ∀ c ∈ name, ¬ c = '=')
    (hhead : ∀ h, name.head? = some h → pyIsSpace h = false)
    (hts : ∀ t ∈ ts, t ≠ [] ∧ ∀ c ∈ t, pyIsSpace c = false)
    (hnd : ts.Nodup)
    (hsorted : ts.Pairwise (fun a b => strLe a b = true)) :
    ppNormDirective (name ++ "=(".toList ++ joinSep ' ' ts ++ ")".toList) =
      some (name ++ "=(".toList ++ joinSep ' ' ts ++ ")".toList) := by
  have hassoc : name ++ "=(".toList ++ joinSep ' ' ts ++ ")".toList =
      name ++ ('=' :: '(' :: (joinSep ' ' ts ++ [')'])) := by
    simp [List.append_assoc]
  rw [hassoc]
  have hsplit := @takeWhile_append_stop (fun c => decide (c ≠ '='))
    name ('=' :: '(' :: (joinSep ' ' ts ++ [')']))
    (fun c hc => decide_eq_true (heq c hc))
    (by
      intro h hh
      simp only [List.head?_cons, Option.some.injEq] at hh
      subst hh
      decide)
  have hstrip : pyStrip (name ++ ('=' :: '(' :: (joinSep ' ' ts ++ [')']))) =
      name ++ ('=' :: '(' :: (joinSep ' ' ts ++ [')'])) := by
    apply pyStrip_eq_self
    · intro c hc
      rw [List.head?_append_of_ne_nil _ hne] at hc
      exact hhead c hc
    · intro c hc
      rw [List.getLast?_append_of_ne_nil name
        (show ('=' :: '(' :: (joinSep ' ' ts ++ [')']) : Str) ≠ [] by
          simp)] at hc
      have h2 : ('=' :: '(' :: (joinSep ' ' ts ++ [')'])).getLast? =
          some ')' := by
        show (['=', '('] ++ (joinSep ' ' ts ++ [')'])).getLast? = some ')'
        rw [List.getLast?_append_of_ne_nil _ (by simp),
          List.getLast?_append_of_ne_nil _ (by simp)]
        rfl
      rw [h2] at hc
      simp only [Option.some.injEq] at hc
      subst hc
      rfl
  have hmatch : ppMatchNorm (name ++ ('=' :: '(' :: (joinSep ' ' ts ++ [')']))) =
      some (name, some (joinSep ' ' ts)) := by
    unfold ppMatchNorm
    rw [hsplit.1, hsplit.2]
    rw [if_neg (by simp [hne])]
    dsimp only
    rw [if_neg (by decide), if_pos rfl, beforeLastParen_append]
  have hpipe : insSortStr (dedupStr (pySplitWs (pyStrip (joinSep ' ' ts)))) =
      ts := by
    rw [pyStrip_joinSep_tokens hts, pySplitWs_joinSep hts,
      dedupStr_of_nodup hnd, insSortStr_of_pairwise hsorted]
  unfold ppNormDirective
  rw [hstrip, hmatch]
  dsimp only
  rw [hpipe, hassoc]

theorem ppNormDirective_chars {chunk dir : Str}
    (h : ppNormDirective chunk = some dir) :
    ∀ c ∈ dir, c ∈ chunk ∨ c ∈ "=*() ".toList := by
  unfold ppNormDirective at h
  cases hm : ppMatchNorm (pyStrip chunk) with
  | none => rw [hm] at h; cases h
  | some res =>
    rw [hm] at h
    obtain ⟨name, allow⟩ := res
    rcases ppMatchNorm_inv hm with ⟨hname, _, hcontent⟩
    have hnsub : ∀ c ∈ name, c ∈ chunk := by
      intro c hc
      rw [hname] at hc
      exact mem_pyStrip ((List.takeWhile_sublist _).subset hc)
    cases allow with
    | none =>
      dsimp only at h
      injection h with h1
      subst h1
      intro c hc
      rcases List.mem_append.mp hc with h2 | h2
      · exact Or.inl (hnsub c h2)
      · right
        have h3 : c = '=' ∨ c = '*' := by
          have h4 : c ∈ ['=', '*'] := h2
          simpa using h4
        rcases h3 with rfl | rfl <;> decide
    | some content =>
      dsimp only at h
      injection h with h1
      subst h1
      intro c hc
      rcases List.mem_append.mp hc with h2 | h2
      · rcases List.mem_append.mp h2 with h3 | h3
        · rcases List.mem_append.mp h3 with h4 | h4
          · exact Or.inl (hnsub c h4)
          · right
            have h5 : c ∈ ['=', '('] := h4
            have h6 : c = '=' ∨ c = '(' := by simpa using h5
            rcases h6 with rfl | rfl <;> decide
        · rcases mem_joinSep h3 with rfl | ⟨t, ht, hct⟩
          · exact Or.inr (by decide)
          · left
            have h5 : t ∈ dedupStr (pySplitWs (pyStrip content)) :=
              mem_insSortStr.mp ht
            have h6 : c ∈ pyStrip content :=
              mem_of_mem_pySplitWs (mem_dedupStr h5) hct
            exact mem_pyStrip (hcontent content rfl c (mem_pyStrip h6))
      · right
        have h3 : c ∈ [')'] := h2
        have h4 : c = ')' := by simpa using h3
        subst h4
        decide

theorem ppNormDirective_output_fixed {chunk dir : Str}
    (h : ppNormDirective chunk = some dir) :
    ppNormDirective dir = some dir ∧ dir ≠ [] := by
  unfold ppNormDirective at h
  cases hm : ppMatchNorm (pyStrip chunk) with
  | none => rw [hm] at h; cases h
  | some res =>
    rw [hm] at h
    obtain ⟨name, allow⟩ := res
    rcases ppMatchNorm_inv hm with ⟨hname, hnem, _⟩
    have hne : name ≠ [] := by
      intro hc
      rw [hc] at hnem
      exact hnem rfl
    have heq : ∀ c ∈ name, ¬ c = '=' := by
      intro c hc
      rw [hname] at hc
      have h2 := List.mem_takeWhile_imp hc
      simpa using h2
    have hhead : ∀ hh, name.head? = some hh → pyIsSpace hh = false := by
      intro hh hhh
      rw [hname] at hhh
      exact head_pyStrip_false chunk (head?_takeWhile hhh)
    cases allow with
    | none =>
      dsimp only at h
      injection h with h1
      subst h1
      exact ⟨ppNormDirective_star name hne heq hhead, by simp [hne]⟩
    | some content =>
      dsimp only at h
      injection h with h1
      subst h1
      have htoks : ∀ t ∈ insSortStr (dedupStr (pySplitWs (pyStrip content))),
          t ≠ [] ∧ ∀ c ∈ t, pyIsSpace c = false := by
        intro t ht
        exact pySplitWs_tokens (mem_dedupStr (mem_insSortStr.mp ht))
      have hnd : (insSortStr (dedupStr (pySplitWs (pyStrip content)))).Nodup :=
        ((insSortStr_perm _).nodup_iff).mpr (dedupStr_nodup _)
      have hsorted :=
        pairwise_insSortStr (dedupStr (pySplitWs (pyStrip content)))
      exact ⟨ppNormDirective_paren name _ hne heq hhead htoks hnd hsorted,
        by simp [hne]⟩

theorem normalize_permissions_policy_idem (value : Str) :
    normalize_permissions_policy (normalize_permissions_policy value) =
      normalize_permissions_policy value := by
  unfold normalize_permissions_policy
  set dirs := (splitSep ',' (pyLower value)).filterMap ppNormDirective
    with hdirs
  have hmemfacts : ∀ dir ∈ dirs, ppNormDirective dir = some dir ∧ dir ≠ [] ∧
      AllLower dir ∧ ',' ∉ dir := by
    intro dir hdir
    rcases List.mem_filterMap.mp hdir with ⟨chunk, hchunk, hout⟩
    have hchars := ppNormDirective_chars hout
    rcases ppNormDirective_output_fixed hout with ⟨hfix, hne⟩
    refine ⟨hfix, hne, ?_, ?_⟩
    · intro c hc
      rcases hchars c hc with h2 | h2
      · exact allLower_pyLower value c (mem_of_mem_splitSep hchunk h2)
      · have h3 : c = '=' ∨ c = '*' ∨ c = '(' ∨ c = ')' ∨ c = ' ' := by
          simpa using h2
        rcases h3 with rfl | rfl | rfl | rfl | rfl <;> rfl
    · intro hc
      rcases hchars ',' hc with h2 | h2
      · exact sep_not_mem_splitSep hchunk h2
      · simp at h2
  by_cases hnil : dirs = []
  · rw [hnil]
    rfl
  · have hsne : insSortStr dirs ≠ [] := insSortStr_ne_nil hnil
    have hlower : pyLower (joinSep ',' (insSortStr dirs)) =
        joinSep ',' (insSortStr dirs) := by
      apply pyLower_eq_self
      intro c hc
      rcases mem_joinSep hc with rfl | ⟨p, hp, hcp⟩
      · rfl
      · exact (hmemfacts p (mem_insSortStr.mp hp)).2.2.1 c hcp
    rw [hlower]
    rw [splitSep_joinSep hsne
      (fun p hp => (hmemfacts p (mem_insSortStr.mp hp)).2.2.2)]
    rw [filterMap_eq_self
      (fun d hd => (hmemfacts d (mem_insSortStr.mp hd)).1)]
    rw [insSortStr_of_pairwise (pairwise_insSortStr dirs)]

/-- C10 (amended): `normalize` is idempotent for HSTS, X-Frame-Options,
    Permissions-Policy, Referrer-Policy, COOP, CORP and COEP; it is not
    idempotent for CSP (see the counterexample). -/
theorem C10_normalize_idempotent_except_csp :
    ∀ X : Str,
      normalize_hsts (normalize_hsts X) = normalize_hsts X ∧
      normalize_xfo (normalize_xfo X) = normalize_xfo X ∧
      normalize_permissions_policy (normalize_permissions_policy X) =
        normalize_permissions_policy X ∧
      normalize_referrer_policy (normalize_referrer_policy X) =
        normalize_referrer_policy X ∧
      normalize_coop (normalize_coop X) = normalize_coop X ∧
      normalize_corp (normalize_corp X) = normalize_corp X ∧
      normalize_coep (normalize_coep X) = normalize_coep X :=
  fun X => ⟨normalize_hsts_idem X, normalize_xfo_idem X,
    normalize_permissions_policy_idem X, normalize_referrer_policy_idem X,
    normalize_coop_idem X, normalize_corp_idem X, normalize_coep_idem X⟩

/-- C10 counterexample: `normalize_csp` is not idempotent.  On
    `script-src report-ua report-tox` the `report-(uri|to)[^;,]*` redaction
    leaves a token between the sorted `report-to` and `report_uri`, which a
    second normalization swallows. -/
theorem C10_counterexample :
    normalize_csp "script-src report-ua report-tox".toList =
      "script-src report-to report-ua report_uri".toList ∧
    normalize_csp (normalize_csp "script-src report-ua report-tox".toList) =
      "script-src report-to report_uri".toList ∧
    normalize_csp (normalize_csp "script-src report-ua report-tox".toList) ≠
      normalize_csp "script-src report-ua report-tox".toList := by
  refine ⟨by decide, by decide, by decide⟩

/-! ### Claim C6 -/

/-- `classify_permissions_policy`'s regex matches exactly the `name=(...)`
    successes of `normalize_permissions_policy`'s regex. -/
theorem ppMatchClassify_eq (d : Str) :
    ppMatchClassify d = (match ppMatchNorm d with
      | some (name, some content) => some (name, content)
      | _ => none) := by
  unfold ppMatchClassify ppMatchNorm
  by_cases he : (d.takeWhile (fun c => c ≠ '=')).isEmpty = true
  · rw [if_pos he, if_pos he]
  · rw [if_neg he, if_neg he]
    cases hdrop : d.dropWhile (fun c => c ≠ '=') with
    | nil => rfl
    | cons e rest =>
      cases rest with
      | nil => rfl
      | cons c0 r2 =>
        dsimp only
        by_cases hc1 : c0 = '*'
        · rw [if_pos hc1, if_neg (by rw [hc1]; decide)]
        · rw [if_neg hc1]
          by_cases hc2 : c0 = '('
          · rw [if_pos hc2, if_pos hc2]
            cases beforeLastParen r2 <;> rfl
          · rw [if_neg hc2, if_neg hc2]

/-- The side condition of the amended C6 for one entry: the entry either does
    not parse, or parses as `name=(...)` with an allowlist that contains
    neither `*` nor one of the origin's quoted self-expressions. -/
def ppC6ok (o : Origin) (chunk : Str) : Bool :=
  match ppMatchNorm (pyStrip chunk) with
  | none => true
  | some (_, none) => false
  | some (_, some content) =>
    !(dedupStr (pySplitWs (pyStrip content))).contains "*".toList &&
    !(dedupStr (pySplitWs (pyStrip content))).any
      (fun e => (pp_self_expressions o).contains e)

theorem classify_pp_fold_norm (o : Origin) :
    ∀ (chunks : List Str) (acc : List Str),
    (∀ chunk ∈ chunks, ppC6ok o chunk = true) →
    (chunks.foldlM (fun acc directive => do
        match ppMatchClassify (pyStrip directive) with
        | none => pure acc
        | some (name, content0) =>
          let content := dedupStr (pySplitWs (pyStrip content0))
          if content.contains "*".toList then pure acc
          else
            match some o with
            | none => Except.error "AttributeError"
            | some o =>
              let selfExprs := pp_self_expressions o
              let content2 :=
                if content.any (fun e => selfExprs.contains e) then
                  let removed := content.filter (fun e => !selfExprs.contains e)
                  if removed.contains "self".toList then removed
                  else removed ++ ["self".toList]
                else content
              pure (acc ++ [name ++ "=(".toList ++
                joinSep ' ' (insSortStr content2) ++ ")".toList])) acc :
      Except String (List Str)) =
    Except.ok (acc ++ chunks.filterMap ppNormDirective) := by
  intro chunks
  induction chunks with
  | nil =>
    intro acc _
    show (pure acc : Except String (List Str)) = Except.ok (acc ++ [])
    rw [List.append_nil]
    rfl
  | cons ch chs ih =>
    intro acc h
    have hch := h ch (List.mem_cons_self ch chs)
    have hrest : ∀ chunk ∈ chs, ppC6ok o chunk = true :=
      fun chunk hc => h chunk (List.mem_cons_of_mem ch hc)
    unfold ppC6ok at hch
    cases hm : ppMatchNorm (pyStrip ch) with
    | none =>
      have hmc : ppMatchClassify (pyStrip ch) = none := by
        rw [ppMatchClassify_eq, hm]
      have hnd : ppNormDirective ch = none := by
        unfold ppNormDirective
        rw [hm]
      show (match ppMatchClassify (pyStrip ch) with
        | none => (pure acc : Except String (List Str))
        | some (name, content0) => _) >>= _ = _
      rw [hmc]
      show chs.foldlM _ acc = _
      rw [ih acc hrest, List.filterMap_cons, hnd]
    | some res =>
      obtain ⟨name, allow⟩ := res
      cases allow with
      | none =>
        rw [hm] at hch
        cases hch
      | some content =>
        rw [hm] at hch
        rcases (Bool.and_eq_true _ _).mp hch with ⟨hstar, hself⟩
        have hmc : ppMatchClassify (pyStrip ch) = some (name, content) := by
          rw [ppMatchClassify_eq, hm]
        have hnd : ppNormDirective ch = some (name ++ "=(".toList ++
            joinSep ' ' (insSortStr (dedupStr (pySplitWs (pyStrip content))))
            ++ ")".toList) := by
          unfold ppNormDirective
          rw [hm]
        show (match ppMatchClassify (pyStrip ch) with
          | none => (pure acc : Except String (List Str))
          | some (name, content0) => _) >>= _ = _
        rw [hmc]
        show ((if (dedupStr (pySplitWs (pyStrip content))).contains
            "*".toList = true then (pure acc : Except String (List Str))
          else _) >>= _) = _
        rw [if_neg (by rw [Bool.not_eq_true'] at hstar; rw [hstar]; simp)]
        show ((pure (acc ++ [name ++ "=(".toList ++ joinSep ' '
            (insSortStr (if (dedupStr (pySplitWs (pyStrip content))).any
                (fun e => (pp_self_expressions o).contains e) then _
              else dedupStr (pySplitWs (pyStrip content)))) ++ ")".toList]) :
            Except String (List Str)) >>= _) = _
        rw [if_neg (by rw [Bool.not_eq_true'] at hself; rw [hself]; simp)]
        show chs.foldlM _ (acc ++ [name ++ "=(".toList ++ joinSep ' '
            (insSortStr (dedupStr (pySplitWs (pyStrip content)))) ++
            ")".toList]) = _
        rw [ih _ hrest, List.filterMap_cons, hnd]
        simp [List.append_assoc]

/-- C6 (amended): `classify_permissions_policy(value, origin)` equals the
    normalized canonical string `normalize_permissions_policy(value)` exactly
    when every comma-separated entry either fails to parse or is a
    `name=(allowlist)` entry whose token set contains neither `*` nor one of
    the origin's quoted self-expressions (no `name=*` entries); in general the
    two differ. -/
theorem C6_classify_pp_eq_normalize (value : Str) (o : Origin)
    (h : ∀ chunk ∈ splitSep ',' (pyLower value), ppC6ok o chunk = true) :
    classify_permissions_policy value (some o) =
      Except.ok (normalize_permissions_policy value) := by
  unfold classify_permissions_policy normalize_permissions_policy
  rw [show (do
      let directives ← (splitSep ',' (pyLower value)).foldlM _ ([] : List Str)
      pure (joinSep ',' (insSortStr directives)) : Except String Str) =
    (splitSep ',' (pyLower value)).foldlM _ ([] : List Str) >>=
      (fun directives => pure (joinSep ',' (insSortStr directives))) from rfl]
  rw [classify_pp_fold_norm o (splitSep ',' (pyLower value)) [] h]
  rw [List.nil_append]
  rfl

/-- C6 witness: at `camera=(x)` with origin `https://example.com` the side
    condition holds, and classification returns the normalized string. -/
theorem C6_witness :
    classify_permissions_policy "camera=(x)".toList
      (some ⟨"https".toList, "example.com".toList, none⟩) =
    Except.ok (normalize_permissions_policy "camera=(x)".toList) :=
  C6_classify_pp_eq_normalize "camera=(x)".toList
    ⟨"https".toList, "example.com".toList, none⟩ (by decide)

/-- C6 counterexample to the claim as stated: on `camera=*`
    `classify_permissions_policy` drops the feature (the regex requires a
    parenthesised allowlist) and returns the empty string, while
    `normalize_permissions_policy` keeps `camera=*`. -/
theorem C6_counterexample :
    classify_permissions_policy "camera=*".toList
      (some ⟨"https".toList, "example.com".toList, none⟩) = Except.ok [] ∧
    normalize_permissions_policy "camera=*".toList = "camera=*".toList ∧
    classify_permissions_policy "camera=*".toList
      (some ⟨"https".toList, "example.com".toList, none⟩) ≠
      Except.ok (normalize_permissions_policy "camera=*".toList) := by
  refine ⟨rfl, by decide, ?_⟩
  intro h
  have h2 := Except.ok.inj h
  exact absurd h2 (by decide)

/-! ### Claim C4: case-insensitivity.

Two strings that agree after lower-casing drive the three `re.sub` scanners to
the same decisions; the replaced output again agrees after lower-casing. -/

theorem pyLower_cons_inv {a b : Char} {as bs : Str}
    (h : pyLower (a :: as) = pyLower (b :: bs)) :
    lowerChar a = lowerChar b ∧ pyLower as = pyLower bs := by
  simp only [pyLower, List.map_cons, List.cons.injEq] at h
  exact h

theorem isEmpty_of_pyLower {xs ys : Str} (h : pyLower xs = pyLower ys) :
    xs.isEmpty = ys.isEmpty := by
  cases xs <;> cases ys <;> first | rfl | cases h

theorem length_eq_of_pyLower {xs ys : Str} (h : pyLower xs = pyLower ys) :
    xs.length = ys.length := by
  have h2 := congrArg List.length h
  simpa [pyLower] using h2

theorem pyLower_pyUpper (X : Str) : pyLower (pyUpper X) = pyLower X := by
  induction X with
  | nil => rfl
  | cons c cs ih =>
    simp only [pyLower, pyUpper, List.map_cons] at ih ⊢
    rw [lowerChar_upperChar c, ih]

theorem isB64_lower {a b : Char} (h : lowerChar a = lowerChar b) :
    isB64 a = isB64 b := by
  unfold isB64
  rw [h]

theorem matchCI_lower (lit : Str) : ∀ {xs ys : Str},
    pyLower xs = pyLower ys →
    (matchCI lit xs = none ∧ matchCI lit ys = none) ∨
    ∃ rx ry, matchCI lit xs = some rx ∧ matchCI lit ys = some ry ∧
      pyLower rx = pyLower ry := by
  induction lit with
  | nil =>
    intro xs ys h
    exact Or.inr ⟨xs, ys, rfl, rfl, h⟩
  | cons l ls ih =>
    intro xs ys h
    cases xs with
    | nil =>
      cases ys with
      | nil => exact Or.inl ⟨rfl, rfl⟩
      | cons b bs => cases h
    | cons c cs =>
      cases ys with
      | nil => cases h
      | cons b bs =>
        rcases pyLower_cons_inv h with ⟨h1, h2⟩
        unfold matchCI
        rw [h1]
        by_cases hl : lowerChar b = l
        · rw [if_pos hl, if_pos hl]
          exact ih h2
        · rw [if_neg hl, if_neg hl]
          exact Or.inl ⟨rfl, rfl⟩

theorem spanLower {p : Char → Bool}
    (hp : ∀ a b, lowerChar a = lowerChar b → p a = p b) :
    ∀ {xs ys : Str}, pyLower xs = pyLower ys →
    pyLower (xs.takeWhile p) = pyLower (ys.takeWhile p) ∧
    pyLower (xs.dropWhile p) = pyLower (ys.dropWhile p) := by
  intro xs
  induction xs with
  | nil =>
    intro ys h
    cases ys with
    | nil => exact ⟨rfl, rfl⟩
    | cons b bs => cases h
  | cons c cs ih =>
    intro ys h
    cases ys with
    | nil => cases h
    | cons b bs =>
      rcases pyLower_cons_inv h with ⟨h1, h2⟩
      rw [List.takeWhile_cons, List.takeWhile_cons, List.dropWhile_cons,
        List.dropWhile_cons, hp c b h1]
      by_cases hb : p b = true
      · simp only [if_pos hb]
        rcases ih h2 with ⟨ht, hd⟩
        refine ⟨?_, hd⟩
        simp only [pyLower, List.map_cons] at ht ⊢
        rw [h1, ht]
      · simp only [if_neg hb]
        exact ⟨by trivial, h⟩

theorem eatEqQuote_lower : ∀ {xs ys : Str}, pyLower xs = pyLower ys →
    (eatEqQuote xs = none ∧ eatEqQuote ys = none) ∨
    ∃ rx ry, eatEqQuote xs = some rx ∧ eatEqQuote ys = some ry ∧
      pyLower rx = pyLower ry := by
  intro xs ys h
  cases xs with
  | nil =>
    cases ys with
    | nil => exact Or.inl ⟨rfl, rfl⟩
    | cons b bs => cases h
  | cons c cs =>
    cases ys with
    | nil => cases h
    | cons b bs =>
      rcases pyLower_cons_inv h with ⟨h1, h2⟩
      simp only [eatEqQuote]
      rw [h1]
      by_cases hq : lowerChar b = quoteA
      · simp only [if_pos hq]
        exact Or.inr ⟨cs, bs, rfl, rfl, h2⟩
      · simp only [if_neg hq]
        by_cases he : lowerChar b = '='
        · simp only [if_pos he]
          cases cs with
          | nil =>
            cases bs with
            | nil => exact Or.inl ⟨rfl, rfl⟩
            | cons b2 bs2 => cases h2
          | cons c2 cs2 =>
            cases bs with
            | nil => cases h2
            | cons b2 bs2 =>
              rcases pyLower_cons_inv h2 with ⟨h3, h4⟩
              dsimp only
              rw [h3]
              by_cases hq2 : lowerChar b2 = quoteA
              · simp only [if_pos hq2]
                exact Or.inr ⟨cs2, bs2, rfl, rfl, h4⟩
              · simp only [if_neg hq2]
                by_cases he2 : lowerChar b2 = '='
                · simp only [if_pos he2]
                  cases cs2 with
                  | nil =>
                    cases bs2 with
                    | nil => exact Or.inl ⟨rfl, rfl⟩
                    | cons b3 bs3 => cases h4
                  | cons c3 cs3 =>
                    cases bs2 with
                    | nil => cases h4
                    | cons b3 bs3 =>
                      rcases pyLower_cons_inv h4 with ⟨h5, h6⟩
                      dsimp only
                      rw [h5]
                      by_cases hq3 : lowerChar b3 = quoteA
                      · simp only [if_pos hq3]
                        exact Or.inr ⟨cs3, bs3, rfl, rfl, h6⟩
                      · simp only [if_neg hq3]
                        exact Or.inl ⟨by trivial, by trivial⟩
                · simp only [if_neg he2]
                  exact Or.inl ⟨by trivial, by trivial⟩
        · simp only [if_neg he]
          exact Or.inl ⟨by trivial, by trivial⟩

/-- The common tail of the nonce/hash matchers: a non-empty base64 body followed
    by `={0,2}'`, with a fixed replacement. -/
def bodyTail (repl : Str) (r : Str) : Option (Str × Str) :=
  if (r.takeWhile isB64).isEmpty then none
  else
    match eatEqQuote (r.dropWhile isB64) with
    | none => none
    | some rest => some (repl, rest)

theorem bodyTail_lower (repl : Str) {r ry : Str} (hr : pyLower r = pyLower ry) :
    (bodyTail repl r = none ∧ bodyTail repl ry = none) ∨
    ∃ rx rry, bodyTail repl r = some rx ∧ bodyTail repl ry = some rry ∧
      pyLower rx.1 = pyLower rry.1 ∧ pyLower rx.2 = pyLower rry.2 := by
  have hspan := spanLower (fun a b hab => isB64_lower hab) hr
  have hie := isEmpty_of_pyLower hspan.1
  unfold bodyTail
  by_cases he : (List.takeWhile isB64 r).isEmpty = true
  · rw [if_pos he, if_pos (hie ▸ he)]
    exact Or.inl ⟨rfl, rfl⟩
  · rw [if_neg he, if_neg (fun hc => he (by rw [hie]; exact hc))]
    rcases eatEqQuote_lower hspan.2 with ⟨he1, he2⟩ | ⟨rest, resty, hq1, hq2, hqr⟩
    · rw [he1, he2]
      exact Or.inl ⟨rfl, rfl⟩
    · rw [hq1, hq2]
      exact Or.inr ⟨_, _, rfl, rfl, rfl, hqr⟩

theorem tryNonce_eq_none {xs : Str} (h : matchCI "'nonce-".toList xs = none) :
    tryNonce xs = none := by
  unfold tryNonce
  rw [h]

theorem tryNonce_eq_tail {xs r1 : Str} (h : matchCI "'nonce-".toList xs = some r1) :
    tryNonce xs = bodyTail "'nonce-VALUE'".toList r1 := by
  unfold tryNonce
  rw [h]
  exact rfl

theorem tryNonce_lower : ∀ {xs ys : Str}, pyLower xs = pyLower ys →
    (tryNonce xs = none ∧ tryNonce ys = none) ∨
    ∃ rx ry, tryNonce xs = some rx ∧ tryNonce ys = some ry ∧
      pyLower rx.1 = pyLower ry.1 ∧ pyLower rx.2 = pyLower ry.2 := by
  intro xs ys h
  rcases matchCI_lower "'nonce-".toList h with ⟨hn1, hn2⟩ | ⟨r1, r1y, hm1, hm2, hr⟩
  · rw [tryNonce_eq_none hn1, tryNonce_eq_none hn2]
    exact Or.inl ⟨rfl, rfl⟩
  · rw [tryNonce_eq_tail hm1, tryNonce_eq_tail hm2]
    exact bodyTail_lower _ hr

theorem trySha1_eq_none {ds : String} {r1 : Str}
    (h : matchCI (ds ++ "-").toList r1 = none) : trySha1 ds r1 = none := by
  unfold trySha1
  rw [h]

theorem trySha1_eq_tail {ds : String} {r1 r2 : Str}
    (h : matchCI (ds ++ "-").toList r1 = some r2) :
    trySha1 ds r1 = bodyTail ("'sha" ++ ds ++ "-VALUE'").toList r2 := by
  unfold trySha1
  rw [h]
  exact rfl

theorem trySha1_lower (ds : String) {r1 r1y : Str} (hr : pyLower r1 = pyLower r1y) :
    (trySha1 ds r1 = none ∧ trySha1 ds r1y = none) ∨
    ∃ rx ry, trySha1 ds r1 = some rx ∧ trySha1 ds r1y = some ry ∧
      pyLower rx.1 = pyLower ry.1 ∧ pyLower rx.2 = pyLower ry.2 := by
  rcases matchCI_lower (ds ++ "-").toList hr with ⟨h1, h2⟩ | ⟨r2, r2y, hm1, hm2, hr2⟩
  · rw [trySha1_eq_none h1, trySha1_eq_none h2]
    exact Or.inl ⟨rfl, rfl⟩
  · rw [trySha1_eq_tail hm1, trySha1_eq_tail hm2]
    exact bodyTail_lower _ hr2

/-- The alternation over the three digit groups of the sha pattern. -/
def shaAlts (r1 : Str) : Option (Str × Str) :=
  match trySha1 "256" r1 with
  | some r => some r
  | none =>
    match trySha1 "384" r1 with
    | some r => some r
    | none => trySha1 "512" r1

theorem trySha_eq_none {xs : Str} (h : matchCI "'sha".toList xs = none) :
    trySha xs = none := by
  unfold trySha
  rw [h]

theorem trySha_eq_alts {xs r1 : Str} (h : matchCI "'sha".toList xs = some r1) :
    trySha xs = shaAlts r1 := by
  unfold trySha
  rw [h]
  exact rfl

theorem trySha_lower : ∀ {xs ys : Str}, pyLower xs = pyLower ys →
    (trySha xs = none ∧ trySha ys = none) ∨
    ∃ rx ry, trySha xs = some rx ∧ trySha ys = some ry ∧
      pyLower rx.1 = pyLower ry.1 ∧ pyLower rx.2 = pyLower ry.2 := by
  intro xs ys h
  rcases matchCI_lower "'sha".toList h with ⟨h1, h2⟩ | ⟨r1, r1y, hm1, hm2, hr⟩
  · rw [trySha_eq_none h1, trySha_eq_none h2]
    exact Or.inl ⟨rfl, rfl⟩
  · rw [trySha_eq_alts hm1, trySha_eq_alts hm2]
    unfold shaAlts
    rcases trySha1_lower "256" hr with ⟨ha1, ha2⟩ | ⟨rx, ry, hs1, hs2, hp1, hp2⟩
    · rw [ha1, ha2]
      rcases trySha1_lower "384" hr with ⟨hb1, hb2⟩ | ⟨rx, ry, hs1, hs2, hp1, hp2⟩
      · rw [hb1, hb2]
        exact trySha1_lower "512" hr
      · rw [hs1, hs2]
        exact Or.inr ⟨rx, ry, rfl, rfl, hp1, hp2⟩
    · rw [hs1, hs2]
      exact Or.inr ⟨rx, ry, rfl, rfl, hp1, hp2⟩

/-- The captured-group length of the `report-(uri|to)` alternation. -/
def reportK (r1 : Str) : Option Nat :=
  match matchCI "uri".toList r1 with
  | some _ => some 3
  | none =>
    match matchCI "to".toList r1 with
    | some _ => some 2
    | none => none

/-- The tail of the `report-` matcher, after the literal has been consumed. -/
def reportTail (r1 : Str) : Option (Str × Str) :=
  match reportK r1 with
  | none => none
  | some k =>
    some ("report-".toList ++ r1.take k ++ " REPORT_URI".toList,
      (r1.drop k).dropWhile (fun c => !(lowerChar c = ';' || lowerChar c = ',')))

theorem tryReport_eq_none {xs : Str} (h : matchCI "report-".toList xs = none) :
    tryReport xs = none := by
  unfold tryReport
  rw [h]

theorem tryReport_eq_tail {xs r1 : Str} (h : matchCI "report-".toList xs = some r1) :
    tryReport xs = reportTail r1 := by
  unfold tryReport
  rw [h]
  exact rfl

theorem reportK_lower {r1 r1y : Str} (hr : pyLower r1 = pyLower r1y) :
    reportK r1 = reportK r1y := by
  unfold reportK
  rcases matchCI_lower "uri".toList hr with ⟨h1, h2⟩ | ⟨w, wy, hm1, hm2, _⟩
  · rw [h1, h2]
    rcases matchCI_lower "to".toList hr with ⟨g1, g2⟩ | ⟨v, vy, hn1, hn2, _⟩
    · rw [g1, g2]
    · rw [hn1, hn2]
  · rw [hm1, hm2]

theorem reportTail_lower {r1 r1y : Str} (hr : pyLower r1 = pyLower r1y) :
    (reportTail r1 = none ∧ reportTail r1y = none) ∨
    ∃ rx ry, reportTail r1 = some rx ∧ reportTail r1y = some ry ∧
      pyLower rx.1 = pyLower ry.1 ∧ pyLower rx.2 = pyLower ry.2 := by
  have hk := reportK_lower hr
  have hmap : List.map lowerChar r1 = List.map lowerChar r1y := hr
  unfold reportTail
  rw [← hk]
  cases hkk : reportK r1 with
  | none => exact Or.inl ⟨rfl, rfl⟩
  | some k =>
    refine Or.inr ⟨_, _, rfl, rfl, ?_, ?_⟩
    · dsimp only
      simp only [pyLower, List.map_append, List.map_take]
      rw [hmap]
    · dsimp only
      have hdrop : pyLower (r1.drop k) = pyLower (r1y.drop k) := by
        simp only [pyLower, List.map_drop]
        rw [hmap]
      exact (spanLower (fun a b hab => by simp only [hab]) hdrop).2

theorem scanSub_lower {tryPat : Str → Option (Str × Str)}
    (htry : ∀ {xs ys : Str}, pyLower xs = pyLower ys →
      (tryPat xs = none ∧ tryPat ys = none) ∨
      ∃ rx ry, tryPat xs = some rx ∧ tryPat ys = some ry ∧
        pyLower rx.1 = pyLower ry.1 ∧ pyLower rx.2 = pyLower ry.2) :
    ∀ (n : Nat) {xs ys : Str}, pyLower xs = pyLower ys →
      pyLower (scanSub tryPat n xs) = pyLower (scanSub tryPat n ys) := by
  intro n
  induction n with
  | zero => intro xs ys h; exact h
  | succ m ih =>
    intro xs ys h
    cases xs with
    | nil =>
      cases ys with
      | nil => rfl
      | cons b bs => cases h
    | cons c cs =>
      cases ys with
      | nil => cases h
      | cons b bs =>
        rcases pyLower_cons_inv h with ⟨h1, h2⟩
        rcases htry h with ⟨hn1, hn2⟩ | ⟨⟨rx1, rx2⟩, ⟨ry1, ry2⟩, hs1, hs2, hp1, hp2⟩
        · simp only [scanSub, hn1, hn2]
          simp only [pyLower, List.map_cons]
          rw [h1]
          have hih := ih h2
          simp only [pyLower] at hih
          rw [hih]
        · simp only [scanSub, hs1, hs2]
          dsimp only at hp1 hp2
          simp only [pyLower, List.map_append]
          have hih := ih hp2
          simp only [pyLower] at hih hp1
          rw [hp1, hih]

theorem reSubNonce_lower {xs ys : Str} (h : pyLower xs = pyLower ys) :
    pyLower (reSubNonce xs) = pyLower (reSubNonce ys) := by
  unfold reSubNonce
  rw [length_eq_of_pyLower h]
  exact scanSub_lower (fun {a b} hab => tryNonce_lower hab) ys.length h

theorem reSubSha_lower {xs ys : Str} (h : pyLower xs = pyLower ys) :
    pyLower (reSubSha xs) = pyLower (reSubSha ys) := by
  unfold reSubSha
  rw [length_eq_of_pyLower h]
  exact scanSub_lower (fun {a b} hab => trySha_lower hab) ys.length h

theorem tryReport_lower : ∀ {xs ys : Str}, pyLower xs = pyLower ys →
    (tryReport xs = none ∧ tryReport ys = none) ∨
    ∃ rx ry, tryReport xs = some rx ∧ tryReport ys = some ry ∧
      pyLower rx.1 = pyLower ry.1 ∧ pyLower rx.2 = pyLower ry.2 := by
  intro xs ys h
  rcases matchCI_lower "report-".toList h with ⟨h1, h2⟩ | ⟨r1, r1y, hm1, hm2, hr⟩
  · rw [tryReport_eq_none h1, tryReport_eq_none h2]
    exact Or.inl ⟨rfl, rfl⟩
  · rw [tryReport_eq_tail hm1, tryReport_eq_tail hm2]
    exact reportTail_lower hr

theorem reSubReport_lower {xs ys : Str} (h : pyLower xs = pyLower ys) :
    pyLower (reSubReport xs) = pyLower (reSubReport ys) := by
  unfold reSubReport
  rw [length_eq_of_pyLower h]
  exact scanSub_lower (fun {a b} hab => tryReport_lower hab) ys.length h

theorem normalize_hsts_upper (X : Str) :
    normalize_hsts (pyUpper X) = normalize_hsts X := by
  unfold normalize_hsts
  rw [pyLower_pyUpper]

theorem normalize_xfo_upper (X : Str) :
    normalize_xfo (pyUpper X) = normalize_xfo X := by
  unfold normalize_xfo
  rw [pyLower_pyUpper]

theorem normalize_permissions_policy_upper (X : Str) :
    normalize_permissions_policy (pyUpper X) = normalize_permissions_policy X := by
  unfold normalize_permissions_policy
  rw [pyLower_pyUpper]

theorem normalize_referrer_policy_upper (X : Str) :
    normalize_referrer_policy (pyUpper X) = normalize_referrer_policy X := by
  unfold normalize_referrer_policy
  rw [pyLower_pyUpper]

theorem normalize_csp_upper (X : Str) :
    normalize_csp (pyUpper X) = normalize_csp X := by
  have h3 := reSubReport_lower (reSubSha_lower (reSubNonce_lower (pyLower_pyUpper X)))
  unfold normalize_csp normalize_csp_with
  dsimp only
  rw [h3]

/-- C4 (amended): `normalize` is case-insensitive — `normalize(uppercase(X)) =
    normalize(X)` for every string `X` — for HSTS, X-Frame-Options, CSP,
    Permissions-Policy and Referrer-Policy.  (It is not for COOP, CORP and
    COEP, which never lower-case; see the counterexample.)  For CSP this
    includes the three `re.IGNORECASE` substitutions running before the
    lower-casing. -/
theorem C4_normalize_case_insensitive_except_co (X : Str) :
    normalize_hsts (pyUpper X) = normalize_hsts X ∧
    normalize_xfo (pyUpper X) = normalize_xfo X ∧
    normalize_csp (pyUpper X) = normalize_csp X ∧
    normalize_permissions_policy (pyUpper X) = normalize_permissions_policy X ∧
    normalize_referrer_policy (pyUpper X) = normalize_referrer_policy X :=
  ⟨normalize_hsts_upper X, normalize_xfo_upper X, normalize_csp_upper X,
   normalize_permissions_policy_upper X, normalize_referrer_policy_upper X⟩

/-- C4 counterexample to the claim as stated over all eight mechanisms: the
    COOP, CORP and COEP normalizers never lower-case, so on `SAME-ORIGIN`
    (resp. `REQUIRE-CORP`) they differ from the lower-case input's result. -/
theorem C4_counterexample :
    normalize_coop (pyUpper "same-origin".toList) ≠ normalize_coop "same-origin".toList ∧
    normalize_corp (pyUpper "same-origin".toList) ≠ normalize_corp "same-origin".toList ∧
    normalize_coep (pyUpper "require-corp".toList) ≠ normalize_coep "require-corp".toList := by
  refine ⟨?_, ?_, ?_⟩ <;> decide
